import Mathlib

/-!
Verification of the osiris resource lifecycle engine.

This file shallowly embeds the core of the repository:

* the paginated, rate-limited fetch protocol of the HTTP client
  (GetEndpoint and getEndpointPage in internal/client),
* the delete protocol (DeleteEndpoint in internal/client/delete.go and
  BaseResource.Delete in internal/resource/resource.go),
* the per-resource fail-fast item-deletion loop of deleteData in
  internal/app/reset.go,
* the dependency-graph builder and the level-grouping topological sort
  (Registry.getOrderedResources and topologicalSort in the resource package).

Go maps are embedded as association lists or as total functions, Go slices
as lists, machine integers as Int or Nat, and fallible code as Except or
Option.  HTTP traffic is embedded as an explicit trace: a list of server
responses consumed one per issued request, together with a log of the
request URLs issued and of the durations passed to the sleep calls.
Context cancellation is not modeled (every run is a run in which the
context is never canceled).  The Go standard library function
time.ParseDuration is external to the repository and is passed as an
explicit parameter wherever the code calls it.
-/

/-- One field value of a JSON object item.  The client treats items as
opaque maps; the only type distinction the code ever makes is the string
type assertion in BaseResource.Delete, so string values are kept exact
and every non-string JSON value is collapsed into one constructor. -/
inductive FieldValue where
  | str (s : String)
  | other
deriving DecidableEq, Repr

/-- An item: a JSON-object-like keyed record, embedded as an association
list (Go: map[string]interface\x7b\x7d with unique keys). -/
abbrev Item := List (String × FieldValue)

/-- Go: delete(item, key) — remove a key from an item. -/
def eraseField (item : Item) (key : String) : Item :=
  item.filter (fun kv => kv.1 ≠ key)

/-- The field stripping applied to every item of every page by
getEndpointPage: delete(item, "updated_at"); delete(item, "created_at"). -/
def stripItem (item : Item) : Item :=
  eraseField (eraseField item "updated_at") "created_at"

/-- Strip every item of a page (the for-loops over pageResp.Data and
pageResp.Items in getEndpointPage). -/
def stripItems (items : List Item) : List Item :=
  items.map stripItem

/-- Durations are Go time.Duration values: a count of nanoseconds. -/
abbrev Duration := Int

/-- internal/client/client.go: defaultRateLimitWaitDuration = 10 * time.Second. -/
def defaultRateLimitWaitDuration : Duration := 10 * 1000000000

/-- internal/client/client.go, Client.retryAfterDuration.  The header
lookup resp.Header.Get("Retry-After") yields "" when the header is
absent, so the argument retryAfter is that string.  parseDuration stands
for the external Go function time.ParseDuration (None embeds a parse
error). -/
def retryAfterDuration (parseDuration : String → Option Duration)
    (retryAfter : String) : Duration :=
  if retryAfter = "" then
    defaultRateLimitWaitDuration
  else
    match parseDuration retryAfter with
    | none => defaultRateLimitWaitDuration
    | some duration => duration

/-- The pagination metadata of a style-B (v1 API) page body. -/
structure PageMeta where
  hasNextPage : Bool
  totalCount : Int
  nextCursor : String
deriving DecidableEq, Repr

/-- The decoded JSON body of a 200 page response, exactly the anonymous
struct decoded by getEndpointPage: a style-A part (data, next) and a
style-B part (items, page). -/
structure PageBody where
  data : List Item
  next : String
  items : List Item
  page : PageMeta
deriving DecidableEq, Repr

/-- One server response to a fetch-page request, by status code.  A 429
carries the Retry-After header value ("" when the header is absent). -/
inductive PageResponse where
  | ok (body : PageBody)
  | tooManyRequests (retryAfter : String)
  | notFound
  | other (status : Nat)
deriving DecidableEq, Repr

/-- The error value returned by getEndpointPage: either a RateLimitError
carrying the computed Retry-After duration, or a plain error message. -/
inductive PageError where
  | rateLimit (retryAfter : Duration)
  | msg (s : String)
deriving DecidableEq, Repr

/-- Go: strings.TrimPrefix(s, "/"): drop one leading "/" when present. -/
def trimSlashPrefix (s : String) : String :=
  if "/".isPrefixOf s then s.drop 1 else s

/-- internal/client/error.go, Client.getEndpointPage, embedded over one
server response.  Returns (data, nextPageURL, error) exactly as the Go
function does: on 200 the decoded body is normalized (style-A data
preferred, style-B items as fallback, both stripped of timestamps) and
the next URL is resolved; on 429 a RateLimitError with the computed
retry duration is returned together with the unchanged URL; on 404 the
result is empty data, no next page and no error; any other status is an
error. -/
def getEndpointPage (baseURL : String) (parseDuration : String → Option Duration)
    (url : String) (resp : PageResponse) :
    List Item × String × Option PageError :=
  match resp with
  | PageResponse.ok body =>
      let data :=
        if body.data.length > 0 then stripItems body.data
        else if body.items.length > 0 then stripItems body.items
        else body.data
      let nextURL :=
        if body.next.length > 0 then
          baseURL ++ "/" ++ trimSlashPrefix body.next
        else if body.page.hasNextPage then
          url ++ "?page.next_cursor=" ++ body.page.nextCursor
        else ""
      (data, nextURL, none)
  | PageResponse.tooManyRequests retryAfter =>
      ([], url, some (PageError.rateLimit (retryAfterDuration parseDuration retryAfter)))
  | PageResponse.notFound => ([], "", none)
  | PageResponse.other status =>
      ([], "", some (PageError.msg ("unhandled status code: " ++ toString status)))

/-- The observable outcome of a client call driven by a response trace:
the returned value (none when the trace ran out of responses while the
loop still wanted to issue a request), the request URLs issued in order,
and the durations passed to time.Sleep in order. -/
structure TraceOutcome (α : Type) where
  result : Option (Except String α)
  requests : List String
  sleeps : List Duration

/-- Prefix one issued request (and optionally one sleep) onto an outcome. -/
def TraceOutcome.afterRequest {α : Type} (url : String) (sleeps : List Duration)
    (o : TraceOutcome α) : TraceOutcome α :=
  { result := o.result, requests := url :: o.requests, sleeps := sleeps ++ o.sleeps }

/-- The pagination loop of internal/client/error.go, Client.GetEndpoint,
embedded over a server response trace.  State: the current page URL and
the accumulated result slice.  Each loop iteration issues one request
(consuming one response).  Mirrors the Go control flow: loop while the
page URL is nonempty; a non-rate-limit page error returns a wrapped
error; a rate limit sleeps for the computed duration and retries the
same URL; a page with zero items returns nil (an empty result) at once;
otherwise the data is appended and the walk continues while a next page
URL is indicated. -/
def getEndpointLoop (baseURL endpoint : String)
    (parseDuration : String → Option Duration) :
    String → List Item → List PageResponse → TraceOutcome (List Item)
  | pageURL, acc, [] =>
    if pageURL.length > 0 then
      { result := none, requests := [], sleeps := [] }
    else
      { result := some (Except.ok acc), requests := [], sleeps := [] }
  | pageURL, acc, resp :: rest =>
    if pageURL.length > 0 then
      match getEndpointPage baseURL parseDuration pageURL resp with
      | (data, nextPageURL, err) =>
        match err with
        | some (PageError.rateLimit retryAfter) =>
            TraceOutcome.afterRequest pageURL [retryAfter]
              (getEndpointLoop baseURL endpoint parseDuration pageURL acc rest)
        | some (PageError.msg s) =>
            { result := some (Except.error ("error getting endpoint " ++ endpoint ++ ": " ++ s)),
              requests := [pageURL], sleeps := [] }
        | none =>
            if data.length = 0 then
              { result := some (Except.ok []), requests := [pageURL], sleeps := [] }
            else if nextPageURL.length = 0 then
              { result := some (Except.ok (acc ++ data)), requests := [pageURL], sleeps := [] }
            else
              TraceOutcome.afterRequest pageURL []
                (getEndpointLoop baseURL endpoint parseDuration nextPageURL (acc ++ data) rest)
    else
      { result := some (Except.ok acc), requests := [], sleeps := [] }

/-- internal/client/error.go, Client.GetEndpoint: start the pagination
walk at baseURL/endpoint with an empty accumulator. -/
def GetEndpoint (baseURL endpoint : String)
    (parseDuration : String → Option Duration)
    (trace : List PageResponse) : TraceOutcome (List Item) :=
  getEndpointLoop baseURL endpoint parseDuration (baseURL ++ "/" ++ endpoint) [] trace

/-- One server response to a delete request, by status code.  A 429
carries the Retry-After header value ("" when the header is absent). -/
inductive DeleteResponse where
  | noContent
  | tooManyRequests (retryAfter : String)
  | other (status : Nat)
deriving DecidableEq, Repr

/-- The retry loop of internal/client/delete.go, Client.DeleteEndpoint,
embedded over a server response trace: 204 succeeds, 429 sleeps for the
computed Retry-After duration and re-issues the identical request, any
other status is an error naming the endpoint and status code. -/
def deleteEndpointLoop (parseDuration : String → Option Duration)
    (endpointWithID url : String) : List DeleteResponse → TraceOutcome Unit
  | [] => { result := none, requests := [], sleeps := [] }
  | resp :: rest =>
    match resp with
    | DeleteResponse.noContent =>
        { result := some (Except.ok ()), requests := [url], sleeps := [] }
    | DeleteResponse.tooManyRequests retryAfter =>
        TraceOutcome.afterRequest url [retryAfterDuration parseDuration retryAfter]
          (deleteEndpointLoop parseDuration endpointWithID url rest)
    | DeleteResponse.other status =>
        { result := some (Except.error ("unable to delete item " ++ endpointWithID
            ++ ": status code " ++ toString status)),
          requests := [url], sleeps := [] }

/-- internal/client/delete.go, Client.DeleteEndpoint: the full URL is
baseURL/endpointWithID and the loop retries until a non-429 response. -/
def DeleteEndpoint (baseURL : String) (parseDuration : String → Option Duration)
    (endpointWithID : String) (trace : List DeleteResponse) : TraceOutcome Unit :=
  deleteEndpointLoop parseDuration endpointWithID (baseURL ++ "/" ++ endpointWithID) trace

/-- A resource descriptor: the fields of resource.BaseResource in
internal/resource/resource.go (display name, API path, declared
dependency names). -/
structure Resource where
  name : String
  path : String
  dependencies : List String
deriving DecidableEq, Repr

/-- Go: value, ok := item[key].(string) — the lookup-plus-string-type
assertion used by BaseResource.Delete. -/
def itemStringField (item : Item) (key : String) : Option String :=
  match item.lookup key with
  | some (FieldValue.str s) => some s
  | _ => none

/-- The identity resolution of internal/resource/resource.go,
BaseResource.Delete: prefer the string field "id", fall back to the
string field "name", and fail otherwise with the exact error of the
source. -/
def deleteItemID (item : Item) : Except String String :=
  match itemStringField item "id" with
  | some id => Except.ok id
  | none =>
    match itemStringField item "name" with
    | some name => Except.ok name
    | none => Except.error "invalid item format: missing id or name field"

/-- internal/resource/resource.go, BaseResource.Delete, embedded over a
delete-response trace: resolve the item identity; on failure return the
identity error without issuing any request; otherwise call DeleteEndpoint
on path/id and wrap its error with the resource name and ID. -/
def BaseResource.Delete (r : Resource) (baseURL : String)
    (parseDuration : String → Option Duration) (item : Item)
    (trace : List DeleteResponse) : TraceOutcome Unit :=
  match deleteItemID item with
  | Except.error e => { result := some (Except.error e), requests := [], sleeps := [] }
  | Except.ok id =>
    let endpointWithID := r.path ++ "/" ++ id
    let o := DeleteEndpoint baseURL parseDuration endpointWithID trace
    { result :=
        match o.result with
        | some (Except.error e) =>
            some (Except.error ("error deleting resource " ++ r.name ++ " with ID "
              ++ id ++ ": " ++ e))
        | other => other,
      requests := o.requests,
      sleeps := o.sleeps }

/-- The per-resource item-deletion loop of internal/app/reset.go,
deleteData (the body of the per-resource goroutine after a successful
List): items are deleted strictly sequentially in list order; on the
first delete error the loop stops and reports the error wrapped with the
1-based item index, the total item count and the resource name.  The
delete call itself is abstracted as a function from items to an optional
surfaced error (none meaning the item was deleted); the returned Nat is
the number of delete calls issued.  Context cancellation is not modeled
(the context is never canceled in this embedding). -/
def deleteDataItems (resourceName : String) (totalCount : Nat)
    (deleteCall : Item → Option String) :
    Nat → List Item → Nat × Option String
  | _, [] => (0, none)
  | i, item :: rest =>
    match deleteCall item with
    | some e =>
        (1, some ("error deleting item " ++ toString (i + 1) ++ "/"
          ++ toString totalCount ++ " for " ++ resourceName ++ ": " ++ e))
    | none =>
        let (calls, res) := deleteDataItems resourceName totalCount deleteCall (i + 1) rest
        (calls + 1, res)

/-- Delete all items of one resource, as deleteData does for each
resource of a level: the loop starts at index 0 with the total equal to
the item count. -/
def deleteResourceData (resourceName : String) (items : List Item)
    (deleteCall : Item → Option String) : Nat × Option String :=
  deleteDataItems resourceName items.length deleteCall 0 items

/-- internal/resource/resource.go, BaseResource.List, embedded over a
fetch-response trace (the trace-exhausted case is propagated as none):
a GetEndpoint error is wrapped with the resource name; an empty result
yields the zero ResourceData (Go: ResourceData\x7b\x7d); otherwise the data is
returned labeled with the resource name. -/
def BaseResource.List (r : Resource) (baseURL : String)
    (parseDuration : String → Option Duration) (trace : List PageResponse) :
    Option (Except String (List Item × String)) :=
  match (GetEndpoint baseURL r.path parseDuration trace).result with
  | none => none
  | some (Except.error e) =>
      some (Except.error ("error listing resource " ++ r.name ++ ": " ++ e))
  | some (Except.ok data) =>
      if data.length = 0 then some (Except.ok ([], ""))
      else some (Except.ok (data, r.name))

/-- A dependency graph: Go map[string][]string, embedded as an
association list from resource name to the list of edge targets. -/
abbrev Graph := List (String × List String)

/-- The key set of a graph (Go: the map's keys). -/
def graphKeys (g : Graph) : List String := g.map Prod.fst

/-- The adjacency list of a node (Go: graph[node], which reads nil for a
missing key). -/
def adjOf (g : Graph) (u : String) : List String :=
  (g.lookup u).getD []

/-- Go map assignment m[k] = v: replace the entry when the key is
present, insert it otherwise. -/
def graphInsert (g : Graph) (k : String) (v : List String) : Graph :=
  match g with
  | [] => [(k, v)]
  | (k2, v2) :: rest =>
    if k2 = k then (k, v) :: rest else (k2, v2) :: graphInsert rest k v

/-- Go: graph[k] = append(graph[k], d) — append one edge target to a
node's adjacency list (inserting the node when absent, as a Go map
does). -/
def appendEdge (g : Graph) (k d : String) : Graph :=
  match g with
  | [] => [(k, [d])]
  | (k2, v) :: rest =>
    if k2 = k then (k2, v ++ [d]) :: rest else (k2, v) :: appendEdge rest k d

/-- resource registry ordering modes (const deleteOrder / insertOrder in
the resource package). -/
inductive OrderType where
  | deleteOrder
  | insertOrder
deriving DecidableEq, Repr

/-- The graph-initialization loop of Registry.getOrderedResources: every
resource name becomes a node with an empty adjacency list. -/
def initGraph (rs : List Resource) : Graph :=
  rs.foldl (fun g r => graphInsert g r.name []) []

/-- The inner edge-addition loop of Registry.getOrderedResources over
one resource's declared dependency list: each dependency must name a
registered resource (the resourceMap existence check) or construction
fails; in delete order the edge runs resource to dependency, in insert
order dependency to resource. -/
def addResourceEdges (ot : OrderType) (names : List String) (resName : String) :
    Graph → List String → Except String Graph
  | g, [] => Except.ok g
  | g, dep :: deps =>
    if names.contains dep then
      match ot with
      | OrderType.deleteOrder => addResourceEdges ot names resName (appendEdge g resName dep) deps
      | OrderType.insertOrder => addResourceEdges ot names resName (appendEdge g dep resName) deps
    else
      Except.error ("dependency not found: " ++ dep)

/-- The outer edge-addition loop of Registry.getOrderedResources over
all registered resources. -/
def addAllEdges (ot : OrderType) (names : List String) :
    Graph → List Resource → Except String Graph
  | g, [] => Except.ok g
  | g, r :: rest =>
    match addResourceEdges ot names r.name g r.dependencies with
    | Except.error e => Except.error e
    | Except.ok g2 => addAllEdges ot names g2 rest

/-- The dependency-graph construction phase of
Registry.getOrderedResources: initialize a node per registered name,
then add every declared edge, validating each dependency name. -/
def buildGraph (ot : OrderType) (rs : List Resource) : Except String Graph :=
  addAllEdges ot (rs.map Resource.name) (initGraph rs) rs

/-- In-degree counters, Go map[string]int embedded as a total function
(absent keys read as zero, exactly as a Go map read does). -/
abbrev Deg := String → Int

/-- Go: inDegree[d]++ . -/
def bumpDeg (deg : Deg) (d : String) : Deg :=
  fun v => if v = d then deg v + 1 else deg v

/-- Go: inDegree[d]-- . -/
def decDeg (deg : Deg) (d : String) : Deg :=
  fun v => if v = d then deg v - 1 else deg v

/-- The in-degree computation of topologicalSort: zero for every node,
then one increment per edge target occurrence. -/
def computeInDeg (g : Graph) : Deg :=
  g.foldl (fun deg p => p.2.foldl bumpDeg deg) (fun _ => 0)

/-- One edge-target step of the level-processing loop of
topologicalSort: decrement the target's in-degree and, when it becomes
exactly zero, append it to the next-level queue. -/
def stepDec (st : Deg × List String) (d : String) : Deg × List String :=
  let deg2 := decDeg st.1 d
  if deg2 d = 0 then (deg2, st.2 ++ [d]) else (deg2, st.2)

/-- Process one node of the current level: decrement every edge target. -/
def processNode (g : Graph) (st : Deg × List String) (u : String) :
    Deg × List String :=
  (adjOf g u).foldl stepDec st

/-- Process a whole level: every node of the queue in order, collecting
the next-level queue. -/
def processLevel (g : Graph) (deg : Deg) (queue : List String) :
    Deg × List String :=
  queue.foldl (processNode g) (deg, [])

/-- The level loop of topologicalSort: while the queue is nonempty,
emit the queue as the next level and process it.  The Go loop has no
fuel; this embedding passes explicit fuel, and topologicalSort supplies
one unit more than the node count, which is enough for every well-formed
graph because each round places at least one node.  Go iterates the
graph map in unspecified order; the embedding fixes the association-list
order, which affects only the (contractually unspecified) ordering
inside a level, never which nodes form each level. -/
def kahnLoop (g : Graph) : Nat → Deg → List String → List (List String) →
    List (List String)
  | 0, _, _, res => res
  | _ + 1, _, [], res => res
  | fuel + 1, deg, u :: queue, res =>
    let st := processLevel g deg (u :: queue)
    kahnLoop g fuel st.1 st.2 (res ++ [u :: queue])

/-- topologicalSort of the resource package: Kahn's algorithm grouped by
level, with the final count check reporting a cycle when some node was
never placed. -/
def topologicalSort (g : Graph) : Except String (List (List String)) :=
  let deg := computeInDeg g
  let queue := (graphKeys g).filter (fun n => deg n = 0)
  let result := kahnLoop g (g.length + 1) deg queue []
  let processedNodes := (result.map List.length).sum
  if processedNodes < g.length then
    Except.error "cyclic dependency detected in resource graph"
  else
    Except.ok result

/-- Go: resourceMap[name] where resourceMap is built by iterating the
registry (a later resource with the same name overwrites an earlier
one). -/
def resourceLookup (rs : List Resource) (n : String) : Option Resource :=
  rs.reverse.find? (fun r => r.name = n)

/-- Registry.getOrderedResources: build and validate the dependency
graph, topologically sort it into levels of names (wrapping a sort
failure), and map every level back to resources through resourceMap. -/
def getOrderedResources (ot : OrderType) (rs : List Resource) :
    Except String (List (List Resource)) :=
  match buildGraph ot rs with
  | Except.error e => Except.error e
  | Except.ok g =>
    match topologicalSort g with
    | Except.error e =>
        Except.error ("failed to topologically sort resources: " ++ e)
    | Except.ok nameLevels =>
        Except.ok (nameLevels.map (fun level =>
          level.filterMap (fun n => resourceLookup rs n)))

/-- Registry.GetResourcesForDeletion: the deletion ordering (leaf
dependents first). -/
def GetResourcesForDeletion (rs : List Resource) :
    Except String (List (List Resource)) :=
  getOrderedResources OrderType.deleteOrder rs

/-! ## Supporting lemmas for the client protocol -/

theorem slash_concat_length_pos (a b : String) : 0 < (a ++ "/" ++ b).length := by
  have h1 := String.length_append (a ++ "/") b
  have h2 := String.length_append a "/"
  have h3 : ("/" : String).length = 1 := rfl
  omega

/-- A style-A page body: the style-B half of the decoded struct is the
JSON zero value (no items array, no page object). -/
def StyleA (b : PageBody) : Prop :=
  b.items = [] ∧ b.page = { hasNextPage := false, totalCount := 0, nextCursor := "" }

instance (b : PageBody) : Decidable (StyleA b) := by
  unfold StyleA; infer_instance

/-- The style-A pagination walk: if every page of the trace is a
nonempty style-A page, every page but the last indicates a next path and
the last does not, the loop accumulates the stripped data arrays of all
pages in order. -/
theorem getEndpointLoop_styleA (baseURL endpoint : String)
    (parseDuration : String → Option Duration) (lastPage : PageBody)
    (front : List PageBody) :
    ∀ (pageURL : String) (acc : List Item), 0 < pageURL.length →
    (∀ p ∈ front ++ [lastPage], StyleA p ∧ 0 < p.data.length) →
    (∀ p ∈ front, 0 < p.next.length) →
    lastPage.next = "" →
    getEndpointLoop baseURL endpoint parseDuration pageURL acc
        ((front ++ [lastPage]).map PageResponse.ok) =
      { result := some (Except.ok (acc ++
          ((front ++ [lastPage]).map (fun p => stripItems p.data)).flatten)),
        requests := pageURL ::
          (front.map (fun p => baseURL ++ "/" ++ trimSlashPrefix p.next)),
        sleeps := [] } := by
  induction front with
  | nil =>
    intro pageURL acc hurl hpages _ hlast
    obtain ⟨hA, hdata⟩ := hpages lastPage (by simp)
    simp only [List.nil_append, List.map_cons, List.map_nil]
    rw [getEndpointLoop]
    simp only [if_pos hurl, getEndpointPage]
    have hnext : lastPage.next.length = 0 := by rw [hlast]; rfl
    have hhnp : lastPage.page.hasNextPage = false := by rw [hA.2]
    simp only [hnext, hhnp]
    have hlen : 0 < (stripItems lastPage.data).length := by
      simpa [stripItems] using hdata
    simp only [if_pos hdata, Nat.lt_irrefl, if_false]
    have hne : lastPage.data ≠ [] := by
      intro h; rw [h] at hdata; simp at hdata
    simp [stripItems, hlen, Nat.pos_iff_ne_zero.mp hlen, hne]
  | cons p front ih =>
    intro pageURL acc hurl hpages hfront hlast
    obtain ⟨hA, hdata⟩ := hpages p (by simp)
    have hpnext : 0 < p.next.length := hfront p (by simp)
    simp only [List.cons_append, List.map_cons]
    rw [getEndpointLoop]
    simp only [if_pos hurl, getEndpointPage]
    simp only [if_pos hdata, if_pos hpnext]
    have hlen : 0 < (stripItems p.data).length := by simpa [stripItems] using hdata
    have hstep := ih (baseURL ++ "/" ++ trimSlashPrefix p.next) (acc ++ stripItems p.data)
      (slash_concat_length_pos _ _)
      (fun q hq => hpages q (by simp at hq ⊢; tauto))
      (fun q hq => hfront q (by simp [hq]))
      hlast
    simp only [stripItems] at hstep hlen ⊢
    rw [if_neg (by omega)]
    rw [if_neg (by have := slash_concat_length_pos baseURL (trimSlashPrefix p.next); omega)]
    rw [hstep]
    simp [TraceOutcome.afterRequest]

/-- C8: a 404 on the collection endpoint makes GetEndpoint return an
empty result with no error at once (and BaseResource.List turns that
into the zero ResourceData with no error), whatever responses would have
followed. -/
theorem getEndpoint_notFound_empty (baseURL endpoint : String)
    (parseDuration : String → Option Duration) (rest : List PageResponse)
    (r : Resource) :
    (GetEndpoint baseURL endpoint parseDuration (PageResponse.notFound :: rest)) =
      { result := some (Except.ok []),
        requests := [baseURL ++ "/" ++ endpoint], sleeps := [] } ∧
    BaseResource.List r baseURL parseDuration (PageResponse.notFound :: rest) =
      some (Except.ok ([], "")) := by
  have key : ∀ ep : String,
      GetEndpoint baseURL ep parseDuration (PageResponse.notFound :: rest) =
        { result := some (Except.ok []),
          requests := [baseURL ++ "/" ++ ep], sleeps := [] } := by
    intro ep
    rw [GetEndpoint, getEndpointLoop, if_pos (slash_concat_length_pos baseURL ep)]
    simp [getEndpointPage]
  refine ⟨key endpoint, ?_⟩
  rw [BaseResource.List, key r.path]
  simp

/-! ## C2: zero-item page termination -/

/-- C2 counterexample input: a first page carrying one item and a next
path. -/
def c2FirstPage : PageBody :=
  { data := [[("id", FieldValue.str "w1"), ("created_at", FieldValue.other)]],
    next := "/widgets?page=2",
    items := [],
    page := { hasNextPage := false, totalCount := 0, nextCursor := "" } }

/-- C2 counterexample input: a second page with zero items and no next
page. -/
def c2EmptyPage : PageBody :=
  { data := [], next := "", items := [],
    page := { hasNextPage := false, totalCount := 0, nextCursor := "" } }

/-- C2 counterexample: after a first page that accumulated one item, a
page with zero items and no next page makes GetEndpoint return the empty
list, not the accumulated item, so the walk does not return everything
accumulated from the preceding pages. -/
theorem getEndpoint_zero_item_page_discards_accumulated :
    (GetEndpoint "https://api/cp" "widgets" (fun _ => none)
        [PageResponse.ok c2FirstPage, PageResponse.ok c2EmptyPage]).result =
      some (Except.ok []) ∧
    stripItems c2FirstPage.data ≠ [] := by
  constructor
  · rfl
  · decide

/-- C2 (amended): when a page response with zero items arrives (in
particular one with no indicated next page), the walk for that resource
terminates at once with no error — but it returns the empty list,
discarding anything accumulated from the preceding pages; the originally
claimed return of everything accumulated so far holds only when nothing
had been accumulated. -/
theorem getEndpointLoop_zero_items_terminates (baseURL endpoint : String)
    (parseDuration : String → Option Duration) (pageURL : String)
    (acc : List Item) (body : PageBody) (rest : List PageResponse)
    (hurl : 0 < pageURL.length) (hdata : body.data = [])
    (hitems : body.items = []) :
    getEndpointLoop baseURL endpoint parseDuration pageURL acc
        (PageResponse.ok body :: rest) =
      { result := some (Except.ok []), requests := [pageURL], sleeps := [] } := by
  rw [getEndpointLoop, if_pos hurl]
  simp [getEndpointPage, hdata, hitems]

/-- C2 witness: the amended theorem at a concrete mid-walk state with a
nonempty accumulator. -/
theorem getEndpointLoop_zero_items_terminates_witness :
    getEndpointLoop "https://api/cp" "widgets" (fun _ => none) "https://api/cp/widgets"
        [[("id", FieldValue.str "w1")]] [PageResponse.ok c2EmptyPage] =
      { result := some (Except.ok []), requests := ["https://api/cp/widgets"],
        sleeps := [] } :=
  getEndpointLoop_zero_items_terminates "https://api/cp" "widgets" (fun _ => none)
    "https://api/cp/widgets" [[("id", FieldValue.str "w1")]] c2EmptyPage []
    (by decide) rfl rfl

/-! ## C5: style-A concatenation -/

/-- C5 counterexample input: a style-A page carrying two items and a
next path. -/
def c5FirstPage : PageBody :=
  { data := [[("name", FieldValue.str "s1"), ("updated_at", FieldValue.other)],
             [("name", FieldValue.str "s2")]],
    next := "/services?page=2",
    items := [],
    page := { hasNextPage := false, totalCount := 0, nextCursor := "" } }

/-- C5 counterexample input: a final style-A page with an empty data
array and an empty next path. -/
def c5LastPage : PageBody :=
  { data := [], next := "", items := [],
    page := { hasNextPage := false, totalCount := 0, nextCursor := "" } }

/-- C5 counterexample: for a style-A sequence whose final page has an
empty data array and an empty next, GetEndpoint returns the empty list
rather than the concatenation of the pages' stripped data arrays, so the
claim fails when a page's data array is empty. -/
theorem getEndpoint_styleA_empty_final_page_not_concatenation :
    (GetEndpoint "https://api/cp" "services" (fun _ => none)
        [PageResponse.ok c5FirstPage, PageResponse.ok c5LastPage]).result =
      some (Except.ok []) ∧
    stripItems c5FirstPage.data ++ stripItems c5LastPage.data ≠ [] := by
  constructor
  · rfl
  · decide

/-- C5 (amended): for a sequence of style-A pages, every one with a
nonempty data array, each page but the last indicating a next path and
the last indicating none, GetEndpoint returns the concatenation in page
order of the pages' data arrays, each item stripped of its created_at
and updated_at fields.  (A page with an empty data array instead ends
the walk with an empty overall result, per the C2 counterexample.) -/
theorem getEndpoint_styleA_concatenation (baseURL endpoint : String)
    (parseDuration : String → Option Duration) (front : List PageBody)
    (lastPage : PageBody)
    (hpages : ∀ p ∈ front ++ [lastPage], StyleA p ∧ 0 < p.data.length)
    (hfront : ∀ p ∈ front, 0 < p.next.length)
    (hlast : lastPage.next = "") :
    (GetEndpoint baseURL endpoint parseDuration
        ((front ++ [lastPage]).map PageResponse.ok)).result =
      some (Except.ok (((front ++ [lastPage]).map (fun p => stripItems p.data)).flatten)) := by
  rw [GetEndpoint, getEndpointLoop_styleA baseURL endpoint parseDuration lastPage front
    (baseURL ++ "/" ++ endpoint) [] (slash_concat_length_pos baseURL endpoint)
    hpages hfront hlast]
  simp

/-- C5 witness: a concrete two-page style-A walk. -/
theorem getEndpoint_styleA_concatenation_witness :
    (GetEndpoint "https://api/cp" "services" (fun _ => none)
        [PageResponse.ok
          { data := [[("id", FieldValue.str "a"), ("created_at", FieldValue.other)]],
            next := "/services?page=2", items := [],
            page := { hasNextPage := false, totalCount := 0, nextCursor := "" } },
         PageResponse.ok
          { data := [[("id", FieldValue.str "b")]],
            next := "", items := [],
            page := { hasNextPage := false, totalCount := 0, nextCursor := "" } }]).result =
      some (Except.ok [[("id", FieldValue.str "a")], [("id", FieldValue.str "b")]]) := by
  have h := getEndpoint_styleA_concatenation "https://api/cp" "services" (fun _ => none)
    [{ data := [[("id", FieldValue.str "a"), ("created_at", FieldValue.other)]],
       next := "/services?page=2", items := [],
       page := { hasNextPage := false, totalCount := 0, nextCursor := "" } }]
    { data := [[("id", FieldValue.str "b")]],
      next := "", items := [],
      page := { hasNextPage := false, totalCount := 0, nextCursor := "" } }
    (by decide) (by decide) rfl
  simpa [stripItems, stripItem, eraseField] using h

/-! ## C6: rate-limit retry policy -/

/-- Every request issued by the DeleteEndpoint retry loop goes to the
same URL. -/
theorem deleteEndpointLoop_requests_same (parseDuration : String → Option Duration)
    (endpointWithID url : String) :
    ∀ (trace : List DeleteResponse) (u : String),
      u ∈ (deleteEndpointLoop parseDuration endpointWithID url trace).requests →
      u = url := by
  intro trace
  induction trace with
  | nil => intro u hu; simp [deleteEndpointLoop] at hu
  | cons resp rest ih =>
    intro u hu
    cases resp with
    | noContent => simpa [deleteEndpointLoop] using hu
    | tooManyRequests h =>
      rw [deleteEndpointLoop] at hu
      simp [TraceOutcome.afterRequest] at hu
      rcases hu with hu | hu
      · exact hu
      · exact ih u hu
    | other status => simpa [deleteEndpointLoop] using hu

/-- C6: on a 429 response the wait before re-issuing the identical
request is the value Client.retryAfterDuration computes: the parsed
Retry-After header, or the fixed 10-second default when the header is
absent or unparsable; and a subsequent 200 (fetch) or 204 (delete)
response yields that response's result.  The first three conjuncts are
the header policy; the fourth and sixth show one 429 round of the fetch
and delete loops sleeps for exactly that duration and continues with the
identical page URL and state; the fifth and seventh run a full 429-then-
success exchange. -/
theorem rateLimit_retry_behavior (baseURL endpoint : String)
    (parseDuration : String → Option Duration) :
    retryAfterDuration parseDuration "" = defaultRateLimitWaitDuration ∧
    (∀ s, s ≠ "" → parseDuration s = none →
      retryAfterDuration parseDuration s = defaultRateLimitWaitDuration) ∧
    (∀ s d, s ≠ "" → parseDuration s = some d →
      retryAfterDuration parseDuration s = d) ∧
    (∀ (pageURL : String) (acc : List Item) (h : String) (rest : List PageResponse),
      0 < pageURL.length →
      getEndpointLoop baseURL endpoint parseDuration pageURL acc
          (PageResponse.tooManyRequests h :: rest) =
        TraceOutcome.afterRequest pageURL [retryAfterDuration parseDuration h]
          (getEndpointLoop baseURL endpoint parseDuration pageURL acc rest)) ∧
    (∀ (pageURL : String) (acc : List Item) (h : String) (body : PageBody),
      0 < pageURL.length → 0 < body.data.length → body.next = "" →
      body.page.hasNextPage = false →
      getEndpointLoop baseURL endpoint parseDuration pageURL acc
          [PageResponse.tooManyRequests h, PageResponse.ok body] =
        { result := some (Except.ok (acc ++ stripItems body.data)),
          requests := [pageURL, pageURL],
          sleeps := [retryAfterDuration parseDuration h] }) ∧
    (∀ (endpointWithID url : String) (h : String) (rest : List DeleteResponse),
      deleteEndpointLoop parseDuration endpointWithID url
          (DeleteResponse.tooManyRequests h :: rest) =
        TraceOutcome.afterRequest url [retryAfterDuration parseDuration h]
          (deleteEndpointLoop parseDuration endpointWithID url rest)) ∧
    (∀ (endpointWithID : String) (h : String),
      DeleteEndpoint baseURL parseDuration endpointWithID
          [DeleteResponse.tooManyRequests h, DeleteResponse.noContent] =
        { result := some (Except.ok ()),
          requests := [baseURL ++ "/" ++ endpointWithID, baseURL ++ "/" ++ endpointWithID],
          sleeps := [retryAfterDuration parseDuration h] }) := by
  refine ⟨rfl, ?_, ?_, ?_, ?_, ?_, ?_⟩
  · intro s hs hp
    rw [retryAfterDuration, if_neg hs, hp]
  · intro s d hs hp
    rw [retryAfterDuration, if_neg hs, hp]
  · intro pageURL acc h rest hurl
    rw [getEndpointLoop, if_pos hurl]
    simp [getEndpointPage]
  · intro pageURL acc h body hurl hdata hnext hhnp
    rw [getEndpointLoop, if_pos hurl]
    simp only [getEndpointPage]
    rw [getEndpointLoop, if_pos hurl]
    simp only [getEndpointPage]
    have hnl : body.next.length = 0 := by rw [hnext]; rfl
    have hlen : 0 < (stripItems body.data).length := by simpa [stripItems] using hdata
    have hne : body.data ≠ [] := by
      intro hc; rw [hc] at hdata; simp at hdata
    simp [hnl, hhnp, hdata, stripItems, hne, TraceOutcome.afterRequest,
      Nat.pos_iff_ne_zero.mp hlen]
  · intro endpointWithID url h rest
    rw [deleteEndpointLoop]
  · intro endpointWithID h
    rw [DeleteEndpoint, deleteEndpointLoop, deleteEndpointLoop]
    simp [TraceOutcome.afterRequest]

/-- C6 witness: a concrete 429-then-success exchange for fetch and for
delete, under a parse function that parses "5s", with each header case
(parsable, unparsable, absent) exercised. -/
theorem rateLimit_retry_behavior_witness :
    retryAfterDuration (fun s => if s = "5s" then some 5000000000 else none) "5s" =
      5000000000 ∧
    retryAfterDuration (fun s => if s = "5s" then some 5000000000 else none) "bad" =
      defaultRateLimitWaitDuration ∧
    retryAfterDuration (fun s => if s = "5s" then some 5000000000 else none) "" =
      defaultRateLimitWaitDuration ∧
    getEndpointLoop "https://api/cp" "services"
        (fun s => if s = "5s" then some 5000000000 else none)
        "https://api/cp/services" []
        [PageResponse.tooManyRequests "5s",
         PageResponse.ok
          { data := [[("id", FieldValue.str "a")]], next := "", items := [],
            page := { hasNextPage := false, totalCount := 0, nextCursor := "" } }] =
      { result := some (Except.ok [[("id", FieldValue.str "a")]]),
        requests := ["https://api/cp/services", "https://api/cp/services"],
        sleeps := [5000000000] } ∧
    DeleteEndpoint "https://api/cp"
        (fun s => if s = "5s" then some 5000000000 else none) "services/a"
        [DeleteResponse.tooManyRequests "", DeleteResponse.noContent] =
      { result := some (Except.ok ()),
        requests := ["https://api/cp/services/a", "https://api/cp/services/a"],
        sleeps := [defaultRateLimitWaitDuration] } := by
  have h := rateLimit_retry_behavior "https://api/cp" "services"
    (fun s => if s = "5s" then some 5000000000 else none)
  refine ⟨h.2.2.1 "5s" 5000000000 (by decide) (by simp), h.2.1 "bad" (by decide) (by simp),
    h.1, ?_, ?_⟩
  · have h5 := h.2.2.2.2.1 "https://api/cp/services" [] "5s"
      { data := [[("id", FieldValue.str "a")]], next := "", items := [],
        page := { hasNextPage := false, totalCount := 0, nextCursor := "" } }
      (by decide) (by decide) rfl rfl
    rw [h5]
    have : retryAfterDuration (fun s => if s = "5s" then some 5000000000 else none) "5s" =
        5000000000 := h.2.2.1 "5s" 5000000000 (by decide) (by simp)
    rw [this]
    rfl
  · have h7 := h.2.2.2.2.2.2 "services/a" ""
    rw [h7, h.1]
    rfl

/-! ## C4: fail-fast delete of a resource's items -/

/-- C4: for a resource listing 3 items whose second delete fails with an
unrecoverable error, exactly 2 delete calls are issued (the third item
is never attempted) and the error names item 2 of 3 and the resource. -/
theorem deleteData_fail_fast_second_of_three (resourceName : String)
    (a b c : Item) (e : String) (deleteCall : Item → Option String)
    (ha : deleteCall a = none) (hb : deleteCall b = some e) :
    deleteResourceData resourceName [a, b, c] deleteCall =
      (2, some ("error deleting item 2/3 for " ++ resourceName ++ ": " ++ e)) := by
  rw [deleteResourceData]
  rw [deleteDataItems, ha, deleteDataItems, hb]
  have hl : [a, b, c].length = 3 := rfl
  rw [hl, show toString (0 + 1 + 1 : Nat) = "2" from rfl,
    show toString (3 : Nat) = "3" from rfl]
  simp

/-- C4 witness: a concrete three-item resource whose second delete
fails. -/
theorem deleteData_fail_fast_second_of_three_witness :
    deleteResourceData "consumer"
        [[("id", FieldValue.str "c1")], [("id", FieldValue.str "c2")],
         [("id", FieldValue.str "c3")]]
        (fun item => if item = [("id", FieldValue.str "c2")]
          then some "unable to delete item consumers/c2: status code 500" else none) =
      (2, some ("error deleting item 2/3 for consumer: "
        ++ "unable to delete item consumers/c2: status code 500")) :=
  deleteData_fail_fast_second_of_three "consumer"
    [("id", FieldValue.str "c1")] [("id", FieldValue.str "c2")]
    [("id", FieldValue.str "c3")]
    "unable to delete item consumers/c2: status code 500"
    (fun item => if item = [("id", FieldValue.str "c2")]
      then some "unable to delete item consumers/c2: status code 500" else none)
    (by decide) (by decide)

/-! ## C7: item identity for delete addressing -/

/-- C7: BaseResource.Delete addresses the delete request by the item's
string field "id"; when that field is absent it falls back to the string
field "name"; when both are absent it returns the fatal item-format
error without issuing any delete request.  Every request that is issued
goes to baseURL/path/identifier. -/
theorem baseResource_delete_addressing (r : Resource) (baseURL : String)
    (parseDuration : String → Option Duration) (item : Item)
    (trace : List DeleteResponse) :
    (∀ id, itemStringField item "id" = some id →
      (BaseResource.Delete r baseURL parseDuration item trace).requests =
        (DeleteEndpoint baseURL parseDuration (r.path ++ "/" ++ id) trace).requests ∧
      ∀ u ∈ (BaseResource.Delete r baseURL parseDuration item trace).requests,
        u = baseURL ++ "/" ++ (r.path ++ "/" ++ id)) ∧
    (itemStringField item "id" = none →
      ∀ nm, itemStringField item "name" = some nm →
      (BaseResource.Delete r baseURL parseDuration item trace).requests =
        (DeleteEndpoint baseURL parseDuration (r.path ++ "/" ++ nm) trace).requests ∧
      ∀ u ∈ (BaseResource.Delete r baseURL parseDuration item trace).requests,
        u = baseURL ++ "/" ++ (r.path ++ "/" ++ nm)) ∧
    (itemStringField item "id" = none → itemStringField item "name" = none →
      (BaseResource.Delete r baseURL parseDuration item trace).result =
        some (Except.error "invalid item format: missing id or name field") ∧
      (BaseResource.Delete r baseURL parseDuration item trace).requests = []) := by
  refine ⟨?_, ?_, ?_⟩
  · intro id hid
    rw [BaseResource.Delete, deleteItemID, hid]
    refine ⟨rfl, ?_⟩
    intro u hu
    exact deleteEndpointLoop_requests_same parseDuration (r.path ++ "/" ++ id)
      (baseURL ++ "/" ++ (r.path ++ "/" ++ id)) trace u hu
  · intro hid nm hnm
    rw [BaseResource.Delete, deleteItemID, hid, hnm]
    refine ⟨rfl, ?_⟩
    intro u hu
    exact deleteEndpointLoop_requests_same parseDuration (r.path ++ "/" ++ nm)
      (baseURL ++ "/" ++ (r.path ++ "/" ++ nm)) trace u hu
  · intro hid hnm
    rw [BaseResource.Delete, deleteItemID, hid, hnm]
    exact ⟨rfl, rfl⟩

/-- C7 witness: concrete items with an id, with only a name, and with
neither. -/
theorem baseResource_delete_addressing_witness :
    (BaseResource.Delete { name := "service", path := "services", dependencies := [] }
        "https://api/cp" (fun _ => none) [("id", FieldValue.str "s1")]
        [DeleteResponse.noContent]).requests = ["https://api/cp/services/s1"] ∧
    (BaseResource.Delete { name := "service", path := "services", dependencies := [] }
        "https://api/cp" (fun _ => none)
        [("name", FieldValue.str "svc"), ("tags", FieldValue.other)]
        [DeleteResponse.noContent]).requests = ["https://api/cp/services/svc"] ∧
    (BaseResource.Delete { name := "service", path := "services", dependencies := [] }
        "https://api/cp" (fun _ => none) [("tags", FieldValue.other)]
        [DeleteResponse.noContent]).result =
      some (Except.error "invalid item format: missing id or name field") ∧
    (BaseResource.Delete { name := "service", path := "services", dependencies := [] }
        "https://api/cp" (fun _ => none) [("tags", FieldValue.other)]
        [DeleteResponse.noContent]).requests = [] := by
  have h1 := (baseResource_delete_addressing
    { name := "service", path := "services", dependencies := [] } "https://api/cp"
    (fun _ => none) [("id", FieldValue.str "s1")] [DeleteResponse.noContent]).1
    "s1" (by decide)
  have h2 := (baseResource_delete_addressing
    { name := "service", path := "services", dependencies := [] } "https://api/cp"
    (fun _ => none) [("name", FieldValue.str "svc"), ("tags", FieldValue.other)]
    [DeleteResponse.noContent]).2.1 (by decide) "svc" (by decide)
  have h3 := (baseResource_delete_addressing
    { name := "service", path := "services", dependencies := [] } "https://api/cp"
    (fun _ => none) [("tags", FieldValue.other)] [DeleteResponse.noContent]).2.2
    (by decide) (by decide)
  refine ⟨?_, ?_, h3.1, h3.2⟩
  · rw [h1.1]; rfl
  · rw [h2.1]; rfl
/-! ## Supporting lemmas for the dependency graph builder -/

theorem adjOf_nil (u : String) : adjOf [] u = [] := rfl

theorem adjOf_cons (k : String) (v : List String) (g : Graph) (u : String) :
    adjOf ((k, v) :: g) u = if k = u then v else adjOf g u := by
  by_cases h : k = u
  · subst h
    simp [adjOf, List.lookup_cons]
  · rw [if_neg h, adjOf, adjOf, List.lookup_cons,
      beq_false_of_ne (fun hc => h hc.symm)]

/-- A node with a nonempty adjacency list is a key of the graph. -/
theorem mem_keys_of_adjOf_ne_nil (g : Graph) (u : String) (h : adjOf g u ≠ []) :
    u ∈ graphKeys g := by
  induction g with
  | nil => exact absurd rfl h
  | cons p g ih =>
    obtain ⟨k, v⟩ := p
    rw [adjOf_cons] at h
    by_cases hk : k = u
    · simp [graphKeys, hk]
    · rw [if_neg hk] at h
      simp only [graphKeys, List.map_cons, List.mem_cons]
      right
      simpa [graphKeys] using ih h

theorem graphKeys_cons (k : String) (v : List String) (g : Graph) :
    graphKeys ((k, v) :: g) = k :: graphKeys g := rfl

theorem graphKeys_graphInsert (g : Graph) (k : String) (v : List String) :
    graphKeys (graphInsert g k v) =
      if k ∈ graphKeys g then graphKeys g else graphKeys g ++ [k] := by
  induction g with
  | nil => simp [graphInsert, graphKeys]
  | cons p g ih =>
    obtain ⟨k2, v2⟩ := p
    rw [graphInsert]
    by_cases h : k2 = k
    · simp [graphKeys, h]
    · rw [if_neg h, graphKeys_cons, graphKeys_cons, ih]
      by_cases hm : k ∈ graphKeys g
      · rw [if_pos hm, if_pos (by simp [hm])]
      · rw [if_neg hm, if_neg (by simp [hm]; exact Ne.symm h)]
        rfl

theorem adjOf_appendEdge_same (g : Graph) (k d : String) :
    adjOf (appendEdge g k d) k = adjOf g k ++ [d] := by
  induction g with
  | nil => simp [appendEdge, adjOf, List.lookup_cons]
  | cons p g ih =>
    obtain ⟨k2, v2⟩ := p
    rw [appendEdge]
    by_cases h : k2 = k
    · subst h
      rw [if_pos rfl, adjOf_cons, adjOf_cons, if_pos rfl, if_pos rfl]
    · rw [if_neg h, adjOf_cons, adjOf_cons, if_neg h, if_neg h]
      exact ih

theorem adjOf_appendEdge_other (g : Graph) (k d u : String) (h : u ≠ k) :
    adjOf (appendEdge g k d) u = adjOf g u := by
  induction g with
  | nil =>
    rw [appendEdge, adjOf_nil, adjOf_cons, if_neg (fun hc => h hc.symm), adjOf_nil]
  | cons p g ih =>
    obtain ⟨k2, v2⟩ := p
    rw [appendEdge]
    by_cases h2 : k2 = k
    · subst h2
      rw [if_pos rfl, adjOf_cons, adjOf_cons, if_neg (fun hc => h hc.symm),
        if_neg (fun hc => h hc.symm)]
    · rw [if_neg h2, adjOf_cons, adjOf_cons]
      by_cases h3 : k2 = u
      · rw [if_pos h3, if_pos h3]
      · rw [if_neg h3, if_neg h3]
        exact ih

theorem graphKeys_appendEdge_of_mem (g : Graph) (k d : String)
    (h : k ∈ graphKeys g) : graphKeys (appendEdge g k d) = graphKeys g := by
  induction g with
  | nil => simp [graphKeys] at h
  | cons p g ih =>
    obtain ⟨k2, v2⟩ := p
    rw [appendEdge]
    by_cases h2 : k2 = k
    · rw [if_pos h2, graphKeys_cons, graphKeys_cons]
    · rw [if_neg h2, graphKeys_cons, graphKeys_cons]
      rw [graphKeys_cons, List.mem_cons] at h
      rcases h with h | h
      · exact absurd h.symm h2
      · rw [ih h]

theorem string_contains_iff_mem (l : List String) (a : String) :
    l.contains a = true ↔ a ∈ l := by
  simp

theorem adjOf_graphInsert (g : Graph) (k : String) (v : List String) (u : String) :
    adjOf (graphInsert g k v) u = if k = u then v else adjOf g u := by
  induction g with
  | nil => rw [graphInsert, adjOf_cons, adjOf_nil]
  | cons p g ih =>
    obtain ⟨k2, v2⟩ := p
    rw [graphInsert]
    by_cases h : k2 = k
    · subst h
      rw [if_pos rfl, adjOf_cons, adjOf_cons]
      by_cases h2 : k2 = u <;> simp [h2]
    · rw [if_neg h, adjOf_cons, adjOf_cons, ih]
      by_cases h2 : k2 = u
      · subst h2
        have hku : ¬k = k2 := fun hc => h hc.symm
        simp [hku]
      · simp [h2]

theorem mem_graphKeys_graphInsert (g : Graph) (k : String) (v : List String)
    (n : String) :
    n ∈ graphKeys (graphInsert g k v) ↔ n ∈ graphKeys g ∨ n = k := by
  rw [graphKeys_graphInsert]
  by_cases h : k ∈ graphKeys g
  · rw [if_pos h]
    constructor
    · exact fun hm => Or.inl hm
    · rintro (hm | hm)
      · exact hm
      · exact hm ▸ h
  · rw [if_neg h]
    simp

theorem nodup_graphKeys_graphInsert (g : Graph) (k : String) (v : List String)
    (h : (graphKeys g).Nodup) : (graphKeys (graphInsert g k v)).Nodup := by
  rw [graphKeys_graphInsert]
  by_cases hm : k ∈ graphKeys g
  · rwa [if_pos hm]
  · rw [if_neg hm]
    simp [List.nodup_append, h, hm]

theorem initGraph_spec (rs : List Resource) :
    (∀ n, n ∈ graphKeys (initGraph rs) ↔ n ∈ rs.map Resource.name) ∧
    (∀ n, adjOf (initGraph rs) n = []) ∧
    (graphKeys (initGraph rs)).Nodup := by
  rw [initGraph]
  suffices h : ∀ (g0 : Graph), (graphKeys g0).Nodup → (∀ n, adjOf g0 n = []) →
      (∀ n, n ∈ graphKeys (rs.foldl (fun g r => graphInsert g r.name []) g0) ↔
        n ∈ graphKeys g0 ∨ n ∈ rs.map Resource.name) ∧
      (∀ n, adjOf (rs.foldl (fun g r => graphInsert g r.name []) g0) n = []) ∧
      (graphKeys (rs.foldl (fun g r => graphInsert g r.name []) g0)).Nodup by
    obtain ⟨h1, h2, h3⟩ := h [] (by simp [graphKeys]) (fun n => rfl)
    refine ⟨fun n => ?_, h2, h3⟩
    rw [h1 n]
    simp [graphKeys]
  induction rs with
  | nil => exact fun g0 hnd hadj => ⟨fun n => by simp, hadj, hnd⟩
  | cons r rs ih =>
    intro g0 hnd hadj
    simp only [List.foldl_cons]
    obtain ⟨h1, h2, h3⟩ := ih (graphInsert g0 r.name [])
      (nodup_graphKeys_graphInsert g0 r.name [] hnd)
      (fun n => by
        rw [adjOf_graphInsert]
        by_cases h : r.name = n
        · rw [if_pos h]
        · rw [if_neg h, hadj])
    refine ⟨fun n => ?_, h2, h3⟩
    rw [h1 n, mem_graphKeys_graphInsert]
    simp only [List.map_cons, List.mem_cons]
    tauto

theorem addResourceEdges_spec (names : List String) (resName : String) :
    ∀ (ds : List String) (g : Graph), (∀ d ∈ ds, d ∈ names) →
    ∃ g2, addResourceEdges OrderType.deleteOrder names resName g ds = Except.ok g2 ∧
      adjOf g2 resName = adjOf g resName ++ ds ∧
      (∀ u, u ≠ resName → adjOf g2 u = adjOf g u) ∧
      (resName ∈ graphKeys g → graphKeys g2 = graphKeys g) := by
  intro ds
  induction ds with
  | nil => exact fun g _ => ⟨g, rfl, by simp, fun u _ => rfl, fun _ => rfl⟩
  | cons d ds ih =>
    intro g hds
    have hd : d ∈ names := hds d (by simp)
    obtain ⟨g2, hok, hsame, hother, hkeys⟩ :=
      ih (appendEdge g resName d) (fun d2 hd2 => hds d2 (by simp [hd2]))
    refine ⟨g2, ?_, ?_, ?_, ?_⟩
    · rw [addResourceEdges, if_pos ((string_contains_iff_mem names d).mpr hd)]
      exact hok
    · rw [hsame, adjOf_appendEdge_same]
      simp
    · intro u hu
      rw [hother u hu, adjOf_appendEdge_other g resName d u hu]
    · intro hm
      rw [hkeys (by rwa [graphKeys_appendEdge_of_mem g resName d hm]),
        graphKeys_appendEdge_of_mem g resName d hm]

theorem addResourceEdges_err (names : List String) (resName : String) :
    ∀ (ds : List String) (g : Graph), (∃ d ∈ ds, d ∉ names) →
    ∃ msg, addResourceEdges OrderType.deleteOrder names resName g ds =
      Except.error msg := by
  intro ds
  induction ds with
  | nil => rintro g ⟨d, hd, _⟩; simp at hd
  | cons d ds ih =>
    rintro g ⟨d2, hd2, hbad⟩
    by_cases hd : d ∈ names
    · rw [List.mem_cons] at hd2
      rcases hd2 with hd2 | hd2
      · exact absurd (hd2 ▸ hd) hbad
      · obtain ⟨msg, hmsg⟩ := ih (appendEdge g resName d) ⟨d2, hd2, hbad⟩
        refine ⟨msg, ?_⟩
        rw [addResourceEdges, if_pos ((string_contains_iff_mem names d).mpr hd)]
        exact hmsg
    · refine ⟨"dependency not found: " ++ d, ?_⟩
      rw [addResourceEdges,
        if_neg (fun hc => hd ((string_contains_iff_mem names d).mp hc))]

theorem addAllEdges_spec (names : List String) :
    ∀ (rs : List Resource) (g : Graph),
    (∀ r ∈ rs, ∀ d ∈ r.dependencies, d ∈ names) →
    ∃ g2, addAllEdges OrderType.deleteOrder names g rs = Except.ok g2 ∧
      (∀ u, adjOf g2 u = adjOf g u ++
        (rs.filter (fun r => r.name = u)).flatMap Resource.dependencies) ∧
      ((∀ r ∈ rs, r.name ∈ graphKeys g) → graphKeys g2 = graphKeys g) := by
  intro rs
  induction rs with
  | nil => exact fun g _ => ⟨g, rfl, by simp, fun _ => rfl⟩
  | cons r rs ih =>
    intro g hval
    obtain ⟨g1, hok1, hsame1, hother1, hkeys1⟩ :=
      addResourceEdges_spec names r.name r.dependencies g
        (hval r (by simp) )
    obtain ⟨g2, hok2, hadj2, hkeys2⟩ :=
      ih g1 (fun r2 hr2 => hval r2 (by simp [hr2]))
    refine ⟨g2, ?_, ?_, ?_⟩
    · rw [addAllEdges, hok1]
      exact hok2
    · intro u
      rw [hadj2 u]
      by_cases hu : r.name = u
      · subst hu
        rw [hsame1]
        simp [List.filter_cons]
      · rw [hother1 u (fun hc => hu hc.symm)]
        simp only [List.filter_cons, decide_eq_true_eq, hu, if_false]
    · intro hmem
      have hk1 : graphKeys g1 = graphKeys g := hkeys1 (hmem r (by simp))
      rw [hkeys2 (fun r2 hr2 => by rw [hk1]; exact hmem r2 (by simp [hr2])), hk1]

theorem addAllEdges_err (names : List String) :
    ∀ (rs : List Resource) (g : Graph),
    (∃ r ∈ rs, ∃ d ∈ r.dependencies, d ∉ names) →
    ∃ msg, addAllEdges OrderType.deleteOrder names g rs = Except.error msg := by
  intro rs
  induction rs with
  | nil => rintro g ⟨r, hr, _⟩; simp at hr
  | cons r rs ih =>
    rintro g ⟨r2, hr2, d, hd, hbad⟩
    by_cases hr : ∃ d2 ∈ r.dependencies, d2 ∉ names
    · obtain ⟨msg, hmsg⟩ := addResourceEdges_err names r.name r.dependencies g hr
      refine ⟨msg, ?_⟩
      rw [addAllEdges, hmsg]
    · have hrgood : ∀ d2 ∈ r.dependencies, d2 ∈ names := by
        intro d2 hd2
        by_contra hc
        exact hr ⟨d2, hd2, hc⟩
      obtain ⟨g1, hok1, _, _, _⟩ := addResourceEdges_spec names r.name r.dependencies g hrgood
      rw [List.mem_cons] at hr2
      rcases hr2 with hr2 | hr2
      · exact absurd (hr2 ▸ hd) (fun hmem => hbad (hrgood d (hr2 ▸ hd)))
      · obtain ⟨msg, hmsg⟩ := ih g1 ⟨r2, hr2, d, hd, hbad⟩
        refine ⟨msg, ?_⟩
        rw [addAllEdges, hok1]
        exact hmsg

theorem buildGraph_spec (rs : List Resource)
    (hval : ∀ r ∈ rs, ∀ d ∈ r.dependencies, d ∈ rs.map Resource.name) :
    ∃ g, buildGraph OrderType.deleteOrder rs = Except.ok g ∧
      (∀ n, n ∈ graphKeys g ↔ n ∈ rs.map Resource.name) ∧
      (graphKeys g).Nodup ∧
      (∀ u, adjOf g u =
        (rs.filter (fun r => r.name = u)).flatMap Resource.dependencies) := by
  obtain ⟨hkeys0, hadj0, hnd0⟩ := initGraph_spec rs
  obtain ⟨g, hok, hadj, hkeys⟩ := addAllEdges_spec (rs.map Resource.name) rs
    (initGraph rs) hval
  have hkeq : graphKeys g = graphKeys (initGraph rs) :=
    hkeys (fun r hr => (hkeys0 r.name).mpr (List.mem_map_of_mem Resource.name hr))
  refine ⟨g, hok, fun n => by rw [hkeq]; exact hkeys0 n, by rw [hkeq]; exact hnd0, ?_⟩
  intro u
  rw [hadj u, hadj0 u]
  simp

/-- C9: graph construction produces a node for every registered resource
name (even for resources with no edges), and fails with an error — which
GetResourcesForDeletion propagates — whenever some registered descriptor
declares a dependency name matching no registered descriptor. -/
theorem buildGraph_nodes_and_missing_dependency (rs : List Resource) :
    ((∀ r ∈ rs, ∀ d ∈ r.dependencies, d ∈ rs.map Resource.name) →
      ∃ g, buildGraph OrderType.deleteOrder rs = Except.ok g ∧
        ∀ n, n ∈ graphKeys g ↔ n ∈ rs.map Resource.name) ∧
    ((∃ r ∈ rs, ∃ d ∈ r.dependencies, d ∉ rs.map Resource.name) →
      ∃ msg, buildGraph OrderType.deleteOrder rs = Except.error msg ∧
        GetResourcesForDeletion rs = Except.error msg) := by
  constructor
  · intro hval
    obtain ⟨g, hok, hiff, _, _⟩ := buildGraph_spec rs hval
    exact ⟨g, hok, hiff⟩
  · intro hbad
    obtain ⟨msg, hmsg⟩ := addAllEdges_err (rs.map Resource.name) rs (initGraph rs) hbad
    refine ⟨msg, hmsg, ?_⟩
    rw [GetResourcesForDeletion, getOrderedResources, buildGraph, hmsg]

/-- C9 witness: a registry of two valid resources builds a graph with
both names as nodes; a registry whose only resource declares an unknown
dependency fails. -/
theorem buildGraph_nodes_and_missing_dependency_witness :
    (∃ g, buildGraph OrderType.deleteOrder
        [{ name := "consumer-group", path := "consumer_groups", dependencies := [] },
         { name := "consumer", path := "consumers", dependencies := ["consumer-group"] }] =
          Except.ok g ∧
      ∀ n, n ∈ graphKeys g ↔ n ∈ ["consumer-group", "consumer"]) ∧
    ∃ msg, GetResourcesForDeletion
        [{ name := "mtls-auth", path := "mtls-auths", dependencies := ["consumer"] }] =
          Except.error msg := by
  constructor
  · obtain ⟨g, hok, hiff⟩ := (buildGraph_nodes_and_missing_dependency
      [{ name := "consumer-group", path := "consumer_groups", dependencies := [] },
       { name := "consumer", path := "consumers", dependencies := ["consumer-group"] }]).1
      (by decide)
    exact ⟨g, hok, by simpa using hiff⟩
  · obtain ⟨msg, _, herr⟩ := (buildGraph_nodes_and_missing_dependency
      [{ name := "mtls-auth", path := "mtls-auths", dependencies := ["consumer"] }]).2
      (by decide)
    exact ⟨msg, herr⟩

/-! ## Counting edges for the topological sort -/

/-- Total number of edges into v: the in-degree the algorithm computes. -/
def countEdgesInto (g : Graph) (v : String) : Nat :=
  (g.map (fun p => p.2.count v)).sum

/-- Number of edges into v whose source lies in the node list P. -/
def edgesFrom (P : List String) (g : Graph) (v : String) : Nat :=
  (P.map (fun u => (adjOf g u).count v)).sum

/-- Well-formedness of a graph as built by the registry: distinct keys
and every edge target a key. -/
def WFGraph (g : Graph) : Prop :=
  (graphKeys g).Nodup ∧ ∀ u, ∀ d ∈ adjOf g u, d ∈ graphKeys g

theorem bumpDeg_foldl (adj : List String) :
    ∀ (deg : Deg) (v : String),
      (adj.foldl bumpDeg deg) v = deg v + adj.count v := by
  induction adj with
  | nil => intro deg v; simp
  | cons d adj ih =>
    intro deg v
    rw [List.foldl_cons, ih]
    by_cases h : v = d
    · subst h
      simp [bumpDeg, List.count_cons]
      omega
    · simp [bumpDeg, h, List.count_cons, Ne.symm h]

theorem computeInDeg_eq (g : Graph) (v : String) :
    computeInDeg g v = (countEdgesInto g v : Int) := by
  rw [computeInDeg, countEdgesInto]
  suffices h : ∀ (deg : Deg),
      (g.foldl (fun deg p => p.2.foldl bumpDeg deg) deg) v =
        deg v + ((g.map (fun p => p.2.count v)).sum : Int) by
    rw [h (fun _ => 0)]
    rw [Nat.cast_list_sum, List.map_map]
    simp only [zero_add]
    rfl
  induction g with
  | nil => intro deg; simp
  | cons p g ih =>
    intro deg
    rw [List.foldl_cons, ih, bumpDeg_foldl]
    simp
    omega

theorem edgesFrom_nil (g : Graph) (v : String) : edgesFrom [] g v = 0 := rfl

theorem edgesFrom_cons (u : String) (P : List String) (g : Graph) (v : String) :
    edgesFrom (u :: P) g v = (adjOf g u).count v + edgesFrom P g v := by
  rw [edgesFrom, edgesFrom, List.map_cons, List.sum_cons]

theorem edgesFrom_append (P1 P2 : List String) (g : Graph) (v : String) :
    edgesFrom (P1 ++ P2) g v = edgesFrom P1 g v + edgesFrom P2 g v := by
  rw [edgesFrom, edgesFrom, edgesFrom, List.map_append, List.sum_append]

theorem edgesFrom_congr (P : List String) (g g2 : Graph)
    (h : ∀ u ∈ P, adjOf g u = adjOf g2 u) (v : String) :
    edgesFrom P g v = edgesFrom P g2 v := by
  rw [edgesFrom, edgesFrom]
  congr 1
  exact List.map_congr_left (fun u hu => by rw [h u hu])

theorem countEdgesInto_eq_edgesFrom_keys (g : Graph)
    (hnd : (graphKeys g).Nodup) (v : String) :
    countEdgesInto g v = edgesFrom (graphKeys g) g v := by
  induction g with
  | nil => rfl
  | cons p g ih =>
    obtain ⟨k, adj⟩ := p
    rw [graphKeys_cons] at hnd ⊢
    rw [List.nodup_cons] at hnd
    rw [countEdgesInto, List.map_cons, List.sum_cons, edgesFrom_cons]
    have hhead : adjOf ((k, adj) :: g) k = adj := by
      rw [adjOf_cons, if_pos rfl]
    rw [hhead]
    congr 1
    rw [← countEdgesInto, ih hnd.2]
    exact edgesFrom_congr (graphKeys g) g ((k, adj) :: g)
      (fun u hu => by
        rw [adjOf_cons, if_neg (fun hc => hnd.1 (by rw [hc]; exact hu))]) v

theorem edgesFrom_eq_finset_sum (P : List String) (hP : P.Nodup) (g : Graph)
    (v : String) :
    edgesFrom P g v = P.toFinset.sum (fun u => (adjOf g u).count v) := by
  rw [edgesFrom, List.sum_toFinset _ hP]

theorem edgesFrom_le_total (P : List String) (g : Graph) (hP : P.Nodup)
    (hsub : ∀ u ∈ P, u ∈ graphKeys g) (hnd : (graphKeys g).Nodup) (v : String) :
    edgesFrom P g v ≤ countEdgesInto g v := by
  rw [countEdgesInto_eq_edgesFrom_keys g hnd v,
    edgesFrom_eq_finset_sum P hP g v, edgesFrom_eq_finset_sum _ hnd g v]
  refine Finset.sum_le_sum_of_subset ?_
  intro u hu
  rw [List.mem_toFinset] at hu ⊢
  exact hsub u hu

theorem edgesFrom_eq_total_of_closed (P : List String) (g : Graph) (hP : P.Nodup)
    (hsub : ∀ u ∈ P, u ∈ graphKeys g) (hnd : (graphKeys g).Nodup) (v : String)
    (hclosed : ∀ u, v ∈ adjOf g u → u ∈ P) :
    edgesFrom P g v = countEdgesInto g v := by
  rw [countEdgesInto_eq_edgesFrom_keys g hnd v,
    edgesFrom_eq_finset_sum P hP g v, edgesFrom_eq_finset_sum _ hnd g v]
  refine Finset.sum_subset ?_ ?_
  · intro u hu
    rw [List.mem_toFinset] at hu ⊢
    exact hsub u hu
  · intro u _ hu
    rw [List.mem_toFinset] at hu
    rw [List.count_eq_zero]
    intro hc
    exact hu (hclosed u hc)

theorem closed_of_edgesFrom_eq_total (P : List String) (g : Graph) (hP : P.Nodup)
    (hsub : ∀ u ∈ P, u ∈ graphKeys g) (hnd : (graphKeys g).Nodup) (v : String)
    (heq : edgesFrom P g v = countEdgesInto g v) :
    ∀ u, v ∈ adjOf g u → u ∈ P := by
  intro u hv
  by_contra hu
  have hukey : u ∈ graphKeys g :=
    mem_keys_of_adjOf_ne_nil g u (fun hc => by rw [hc] at hv; simp at hv)
  have hP2 : (P ++ [u]).Nodup := by
    simp [List.nodup_append, hP, hu]
  have hle : edgesFrom (P ++ [u]) g v ≤ countEdgesInto g v :=
    edgesFrom_le_total (P ++ [u]) g hP2
      (fun w hw => by
        rcases List.mem_append.mp hw with hw | hw
        · exact hsub w hw
        · rw [List.mem_singleton] at hw
          exact hw ▸ hukey)
      hnd v
  rw [edgesFrom_append, heq, edgesFrom_cons, edgesFrom_nil] at hle
  have hpos : 0 < (adjOf g u).count v := List.count_pos_iff.mpr hv
  omega

/-! ## The level-processing fold of the topological sort -/

theorem stepDec_fst (st : Deg × List String) (d : String) :
    (stepDec st d).1 = decDeg st.1 d := by
  rw [stepDec]
  split <;> rfl

theorem stepDec_snd_pos (st : Deg × List String) (d : String)
    (h : decDeg st.1 d d = 0) : (stepDec st d).2 = st.2 ++ [d] := by
  rw [stepDec]
  simp only [h]
  rfl

theorem stepDec_snd_neg (st : Deg × List String) (d : String)
    (h : decDeg st.1 d d ≠ 0) : (stepDec st d).2 = st.2 := by
  rw [stepDec]
  simp only [if_neg h]

theorem stepDec_foldl_deg (D : List String) :
    ∀ (deg : Deg) (q : List String) (v : String),
      ((D.foldl stepDec (deg, q)).1) v = deg v - (D.count v : Int) := by
  induction D with
  | nil => intro deg q v; simp
  | cons d D ih =>
    intro deg q v
    rw [List.foldl_cons]
    have hpair : D.foldl stepDec (stepDec (deg, q) d) =
        D.foldl stepDec ((stepDec (deg, q) d).1, (stepDec (deg, q) d).2) := rfl
    rw [hpair, ih, stepDec_fst]
    by_cases hv : v = d
    · subst hv
      simp [decDeg, List.count_cons]
      omega
    · have h1 : decDeg deg d v = deg v := by rw [decDeg, if_neg hv]
      have h2 : List.count v (d :: D) = List.count v D := by
        simp [List.count_cons, Ne.symm hv]
      rw [h1, h2]

theorem stepDec_foldl_queue_count (D : List String) :
    ∀ (deg : Deg) (q : List String) (v : String),
      ((D.foldl stepDec (deg, q)).2).count v =
        q.count v + (if 0 < deg v ∧ deg v ≤ (D.count v : Int) then 1 else 0) := by
  induction D with
  | nil =>
    intro deg q v
    simp only [List.foldl_nil, List.count_nil, Nat.cast_zero]
    split_ifs with h
    · omega
    · omega
  | cons d D ih =>
    intro deg q v
    rw [List.foldl_cons]
    by_cases hd : decDeg deg d d = 0
    · have hst : stepDec (deg, q) d = (decDeg deg d, q ++ [d]) :=
        Prod.ext (stepDec_fst (deg, q) d) (stepDec_snd_pos (deg, q) d hd)
      rw [hst, ih]
      by_cases hv : v = d
      · subst hv
        have hd1 : deg v = 1 := by
          rw [decDeg, if_pos rfl] at hd
          omega
        have hc1 : List.count v (q ++ [v]) = List.count v q + 1 := by
          simp [List.count_append]
        have hc2 : List.count v (v :: D) = List.count v D + 1 := by
          simp [List.count_cons]
        have hcond1 : ¬(0 < decDeg deg v v ∧ decDeg deg v v ≤ (List.count v D : Int)) := by
          rw [decDeg, if_pos rfl, hd1]
          simp
        have hcond2 : 0 < deg v ∧ deg v ≤ (List.count v (v :: D) : Int) := by
          rw [hd1, hc2]
          constructor
          · omega
          · have : (0 : Int) ≤ (List.count v D : Int) := Int.natCast_nonneg _
            push_cast
            omega
        rw [hc1, if_neg hcond1, if_pos hcond2]
      · have hdv : decDeg deg d v = deg v := by rw [decDeg, if_neg hv]
        have hc1 : List.count v (q ++ [d]) = List.count v q := by
          rw [List.count_append]
          have : List.count v [d] = 0 := by
            rw [List.count_eq_zero]
            simp [hv]
          rw [this]
          omega
        have hc2 : List.count v (d :: D) = List.count v D := by
          simp [List.count_cons, Ne.symm hv]
        rw [hdv, hc1, hc2]
    · have hst : stepDec (deg, q) d = (decDeg deg d, q) :=
        Prod.ext (stepDec_fst (deg, q) d) (stepDec_snd_neg (deg, q) d hd)
      rw [hst, ih]
      by_cases hv : v = d
      · subst hv
        have hdne : deg v - 1 ≠ 0 := by
          rw [decDeg, if_pos rfl] at hd
          exact hd
        have hdv : decDeg deg v v = deg v - 1 := by rw [decDeg, if_pos rfl]
        have hc2 : List.count v (v :: D) = List.count v D + 1 := by
          simp [List.count_cons]
        rw [hdv, hc2]
        have hsplit : (0 < deg v - 1 ∧ deg v - 1 ≤ (List.count v D : Int)) ↔
            (0 < deg v ∧ deg v ≤ ((List.count v D + 1 : Nat) : Int)) := by
          push_cast
          omega
        by_cases hcond : 0 < deg v - 1 ∧ deg v - 1 ≤ (List.count v D : Int)
        · rw [if_pos hcond, if_pos (hsplit.mp hcond)]
        · rw [if_neg hcond, if_neg (fun hc => hcond (hsplit.mpr hc))]
      · have hdv : decDeg deg d v = deg v := by rw [decDeg, if_neg hv]
        have hc2 : List.count v (d :: D) = List.count v D := by
          simp [List.count_cons, Ne.symm hv]
        rw [hdv, hc2]

theorem processLevel_eq (g : Graph) (deg : Deg) (Q : List String) :
    processLevel g deg Q = (Q.flatMap (adjOf g)).foldl stepDec (deg, []) := by
  rw [processLevel]
  suffices h : ∀ (st : Deg × List String),
      Q.foldl (processNode g) st = (Q.flatMap (adjOf g)).foldl stepDec st from
    h (deg, [])
  induction Q with
  | nil => intro st; rfl
  | cons u Q ih =>
    intro st
    rw [List.foldl_cons, List.flatMap_cons, List.foldl_append, processNode]
    exact ih _

theorem count_flatMap_adjOf (g : Graph) (Q : List String) (v : String) :
    (Q.flatMap (adjOf g)).count v = edgesFrom Q g v := by
  induction Q with
  | nil => rfl
  | cons u Q ih =>
    rw [List.flatMap_cons, List.count_append, ih, edgesFrom_cons]

theorem edgesFrom_pos (g : Graph) (Q : List String) (v : String)
    (h : 0 < edgesFrom Q g v) : ∃ u ∈ Q, v ∈ adjOf g u := by
  induction Q with
  | nil => simp [edgesFrom_nil] at h
  | cons u Q ih =>
    rw [edgesFrom_cons] at h
    by_cases hc : 0 < (adjOf g u).count v
    · exact ⟨u, by simp, List.count_pos_iff.mp hc⟩
    · obtain ⟨w, hw, hv⟩ := ih (by omega)
      exact ⟨w, by simp [hw], hv⟩

theorem processLevel_deg (g : Graph) (deg : Deg) (Q : List String) (v : String) :
    (processLevel g deg Q).1 v = deg v - (edgesFrom Q g v : Int) := by
  rw [processLevel_eq, stepDec_foldl_deg, count_flatMap_adjOf]

theorem processLevel_queue_count (g : Graph) (deg : Deg) (Q : List String)
    (v : String) :
    (processLevel g deg Q).2.count v =
      if 0 < deg v ∧ deg v ≤ (edgesFrom Q g v : Int) then 1 else 0 := by
  rw [processLevel_eq, stepDec_foldl_queue_count, count_flatMap_adjOf]
  simp

theorem processLevel_queue_mem (g : Graph) (deg : Deg) (Q : List String)
    (v : String) :
    v ∈ (processLevel g deg Q).2 ↔
      (0 < deg v ∧ deg v ≤ (edgesFrom Q g v : Int)) := by
  rw [← List.count_pos_iff, processLevel_queue_count]
  split_ifs with h
  · simp [h]
  · simp [h]

theorem processLevel_queue_nodup (g : Graph) (deg : Deg) (Q : List String) :
    (processLevel g deg Q).2.Nodup := by
  rw [List.nodup_iff_count_le_one]
  intro v
  rw [processLevel_queue_count]
  split_ifs <;> omega

/-- The loop invariant of the level loop of topologicalSort, at the loop
head with in-degree state deg, pending queue, and emitted levels res.
The placed set is res.flatten. -/
structure KahnInv (g : Graph) (deg : Deg) (queue : List String)
    (res : List (List String)) : Prop where
  placed_nodup : res.flatten.Nodup
  placed_sub : ∀ v ∈ res.flatten, v ∈ graphKeys g
  queue_nodup : queue.Nodup
  queue_sub : ∀ v ∈ queue, v ∈ graphKeys g
  queue_disj : ∀ v ∈ queue, v ∉ res.flatten
  deg_eq : ∀ v, deg v = (countEdgesInto g v : Int) - (edgesFrom res.flatten g v : Int)
  queue_zero : ∀ v ∈ queue, deg v = 0
  zero_mem : ∀ v ∈ graphKeys g, deg v = 0 → v ∉ res.flatten → v ∈ queue
  placed_closed : ∀ u v, v ∈ adjOf g u → v ∈ res.flatten → u ∈ res.flatten
  ord : ∀ u v, v ∈ adjOf g u → ∀ i j, ∀ (hi : i < res.length) (hj : j < res.length),
    u ∈ res.get ⟨i, hi⟩ → v ∈ res.get ⟨j, hj⟩ → i < j

theorem kahnInv_deg_nonneg (g : Graph) (hwf : WFGraph g) (deg : Deg)
    (queue : List String) (res : List (List String))
    (inv : KahnInv g deg queue res) : ∀ v, 0 ≤ deg v := by
  intro v
  rw [inv.deg_eq v]
  have h := edgesFrom_le_total res.flatten g inv.placed_nodup inv.placed_sub hwf.1 v
  omega

/-- A node whose current in-degree is zero has all of its in-neighbors
placed. -/
theorem kahnInv_zero_closed (g : Graph) (hwf : WFGraph g) (deg : Deg)
    (queue : List String) (res : List (List String))
    (inv : KahnInv g deg queue res) (v : String) (hv : deg v = 0) :
    ∀ u, v ∈ adjOf g u → u ∈ res.flatten := by
  have heq : edgesFrom res.flatten g v = countEdgesInto g v := by
    have h := inv.deg_eq v
    omega
  exact closed_of_edgesFrom_eq_total res.flatten g inv.placed_nodup
    inv.placed_sub hwf.1 v heq

/-- Every placed node has current in-degree zero. -/
theorem kahnInv_placed_zero (g : Graph) (hwf : WFGraph g) (deg : Deg)
    (queue : List String) (res : List (List String))
    (inv : KahnInv g deg queue res) (v : String) (hv : v ∈ res.flatten) :
    deg v = 0 := by
  have heq : edgesFrom res.flatten g v = countEdgesInto g v :=
    edgesFrom_eq_total_of_closed res.flatten g inv.placed_nodup inv.placed_sub
      hwf.1 v (fun u hu => inv.placed_closed u v hu hv)
  have h := inv.deg_eq v
  omega

/-- One round of the level loop preserves the invariant: the queue is
emitted as a level and processed. -/
theorem kahnInv_step (g : Graph) (hwf : WFGraph g) (deg : Deg) (Q : List String)
    (res : List (List String)) (inv : KahnInv g deg Q res) :
    KahnInv g (processLevel g deg Q).1 (processLevel g deg Q).2 (res ++ [Q]) := by
  have hflat : (res ++ [Q]).flatten = res.flatten ++ Q := by simp
  have hP'nodup : (res.flatten ++ Q).Nodup :=
    List.Nodup.append inv.placed_nodup inv.queue_nodup
      (fun a ha hb => inv.queue_disj a hb ha)
  have hP'sub : ∀ v ∈ res.flatten ++ Q, v ∈ graphKeys g := by
    intro v hv
    rcases List.mem_append.mp hv with hv | hv
    · exact inv.placed_sub v hv
    · exact inv.queue_sub v hv
  have hdeg' : ∀ v, (processLevel g deg Q).1 v =
      (countEdgesInto g v : Int) - (edgesFrom (res.flatten ++ Q) g v : Int) := by
    intro v
    rw [processLevel_deg, inv.deg_eq v, edgesFrom_append]
    push_cast
    omega
  have hnonneg' : ∀ v, 0 ≤ (processLevel g deg Q).1 v := by
    intro v
    rw [hdeg' v]
    have h := edgesFrom_le_total (res.flatten ++ Q) g hP'nodup hP'sub hwf.1 v
    omega
  have hnonneg := kahnInv_deg_nonneg g hwf deg Q res inv
  refine ⟨?_, ?_, ?_, ?_, ?_, ?_, ?_, ?_, ?_, ?_⟩
  · rw [hflat]; exact hP'nodup
  · rw [hflat]; exact hP'sub
  · exact processLevel_queue_nodup g deg Q
  · intro v hv
    obtain ⟨hpos, hle⟩ := (processLevel_queue_mem g deg Q v).mp hv
    have hef : 0 < edgesFrom Q g v := by omega
    obtain ⟨u, _, hadj⟩ := edgesFrom_pos g Q v hef
    exact hwf.2 u v hadj
  · intro v hv
    obtain ⟨hpos, _⟩ := (processLevel_queue_mem g deg Q v).mp hv
    rw [hflat]
    intro hmem
    rcases List.mem_append.mp hmem with hmem | hmem
    · have := kahnInv_placed_zero g hwf deg Q res inv v hmem
      omega
    · have := inv.queue_zero v hmem
      omega
  · intro v
    rw [hflat]
    exact hdeg' v
  · intro v hv
    obtain ⟨hpos, hle⟩ := (processLevel_queue_mem g deg Q v).mp hv
    have h1 : (processLevel g deg Q).1 v = deg v - (edgesFrom Q g v : Int) :=
      processLevel_deg g deg Q v
    have h2 := hnonneg' v
    omega
  · intro v hkey hzero hnot
    rw [hflat] at hnot
    have h1 : (processLevel g deg Q).1 v = deg v - (edgesFrom Q g v : Int) :=
      processLevel_deg g deg Q v
    have hv0 := hnonneg v
    rcases lt_or_eq_of_le hv0 with hvpos | hveq
    · refine (processLevel_queue_mem g deg Q v).mpr ⟨hvpos, ?_⟩
      omega
    · have hvq := inv.zero_mem v hkey hveq.symm
        (fun hc => hnot (List.mem_append.mpr (Or.inl hc)))
      exact absurd (List.mem_append.mpr (Or.inr hvq)) hnot
  · intro u v hadj hv
    rw [hflat] at hv ⊢
    rcases List.mem_append.mp hv with hv | hv
    · exact List.mem_append.mpr (Or.inl (inv.placed_closed u v hadj hv))
    · have hzero := inv.queue_zero v hv
      exact List.mem_append.mpr
        (Or.inl (kahnInv_zero_closed g hwf deg Q res inv v hzero u hadj))
  · intro u v hadj i j hi hj hu hv
    have hlen : (res ++ [Q]).length = res.length + 1 := by simp
    have hget_left : ∀ (m : Nat) (hm : m < res.length)
        (h2 : m < (res ++ [Q]).length),
        (res ++ [Q]).get ⟨m, h2⟩ = res.get ⟨m, hm⟩ :=
      fun m hm h2 => by simp [List.getElem_append_left, hm]
    have hget_last : ∀ (h2 : res.length < (res ++ [Q]).length),
        (res ++ [Q]).get ⟨res.length, h2⟩ = Q := fun h2 => by simp
    have hi2 : i < res.length ∨ i = res.length := by
      rw [hlen] at hi; omega
    have hj2 : j < res.length ∨ j = res.length := by
      rw [hlen] at hj; omega
    rcases hi2 with hi2 | hi2
    · rcases hj2 with hj2 | hj2
      · rw [hget_left i hi2 hi] at hu
        rw [hget_left j hj2 hj] at hv
        exact inv.ord u v hadj i j hi2 hj2 hu hv
      · omega
    · subst hi2
      rw [hget_last hi] at hu
      rcases hj2 with hj2 | hj2
      · rw [hget_left j hj2 hj] at hv
        have hvP : v ∈ res.flatten :=
          List.mem_flatten.mpr ⟨res.get ⟨j, hj2⟩, res.get_mem _ _, hv⟩
        have huP : u ∈ res.flatten := inv.placed_closed u v hadj hvP
        exact absurd huP (inv.queue_disj u hu)
      · subst hj2
        rw [hget_last hj] at hv
        have hzero := inv.queue_zero v hv
        have huP : u ∈ res.flatten :=
          kahnInv_zero_closed g hwf deg Q res inv v hzero u hadj
        exact absurd huP (inv.queue_disj u hu)

theorem nodup_subset_length_le (l m : List String) (hl : l.Nodup)
    (hsub : ∀ x ∈ l, x ∈ m) : l.length ≤ m.length := by
  calc l.length = l.toFinset.card := (List.toFinset_card_of_nodup hl).symm
    _ ≤ m.toFinset.card := Finset.card_le_card (fun x hx => by
        rw [List.mem_toFinset] at hx ⊢
        exact hsub x hx)
    _ ≤ m.length := m.toFinset_card_le

/-- Running the level loop from an invariant state yields a final state
still satisfying the invariant; with enough fuel the final queue is
empty. -/
theorem kahnLoop_spec (g : Graph) (hwf : WFGraph g) :
    ∀ (fuel : Nat) (deg : Deg) (Q : List String) (res : List (List String)),
    KahnInv g deg Q res →
    ∃ deg2 Q2, KahnInv g deg2 Q2 (kahnLoop g fuel deg Q res) ∧
      ((graphKeys g).length - res.flatten.length < fuel → Q2 = []) := by
  intro fuel
  induction fuel with
  | zero =>
    intro deg Q res inv
    refine ⟨deg, Q, ?_, fun h => absurd h (by omega)⟩
    rw [kahnLoop]
    exact inv
  | succ fuel ih =>
    intro deg Q res inv
    cases Q with
    | nil =>
      refine ⟨deg, [], ?_, fun _ => rfl⟩
      rw [kahnLoop]
      exact inv
    | cons u q =>
      rw [kahnLoop]
      obtain ⟨deg2, Q2, hinv2, hfuel⟩ :=
        ih (processLevel g deg (u :: q)).1 (processLevel g deg (u :: q)).2
          (res ++ [u :: q]) (kahnInv_step g hwf deg (u :: q) res inv)
      refine ⟨deg2, Q2, hinv2, fun hf => hfuel ?_⟩
      have hplaced : ((res ++ [u :: q]).flatten).length =
          res.flatten.length + (u :: q).length := by simp
      have hulen : res.flatten.length + 1 ≤ (graphKeys g).length := by
        have hnodup : (res.flatten ++ [u]).Nodup := by
          rw [List.nodup_append]
          refine ⟨inv.placed_nodup, List.nodup_singleton u, ?_⟩
          intro a ha hc
          rw [List.mem_singleton] at hc
          exact inv.queue_disj u (by simp) (hc ▸ ha)
        have hsub : ∀ x ∈ res.flatten ++ [u], x ∈ graphKeys g := by
          intro x hx
          rcases List.mem_append.mp hx with hx | hx
          · exact inv.placed_sub x hx
          · rw [List.mem_singleton] at hx
            exact hx ▸ inv.queue_sub u (by simp)
        have := nodup_subset_length_le (res.flatten ++ [u]) (graphKeys g)
          hnodup hsub
        simpa using this
      rw [hplaced]
      simp only [List.length_cons]
      omega

/-- The invariant holds at the start of the loop: empty result, the
computed in-degrees, and the zero-in-degree keys as the first queue. -/
theorem kahnInv_init (g : Graph) (hwf : WFGraph g) :
    KahnInv g (computeInDeg g)
      ((graphKeys g).filter (fun n => computeInDeg g n = 0)) [] := by
  refine ⟨by simp, by simp, ?_, ?_, by simp, ?_, ?_, ?_, by simp, ?_⟩
  · exact hwf.1.filter _
  · intro v hv
    exact (List.mem_filter.mp hv).1
  · intro v
    rw [computeInDeg_eq]
    simp [edgesFrom_nil]
  · intro v hv
    have := (List.mem_filter.mp hv).2
    simpa using this
  · intro v hkey hzero _
    rw [List.mem_filter]
    exact ⟨hkey, by simpa using hzero⟩
  · intro u v _ i j hi hj
    simp at hi

/-! ## Cycles -/

/-- An edge of the built dependency graph. -/
def GEdge (g : Graph) (u v : String) : Prop := v ∈ adjOf g u

/-- A cycle under an edge relation: a nonempty list v :: tail such that
the edges chain from v through the tail and back to v.  A singleton [v]
is a self-loop R v v. -/
def IsCycle (R : String → String → Prop) : List String → Prop
  | [] => False
  | v :: tail => List.Chain R v (tail ++ [v])

theorem chain_mem_pred (R : String → String → Prop) :
    ∀ (l : List String) (a : String), List.Chain R a l →
      ∀ x ∈ l, ∃ u ∈ a :: l, R u x := by
  intro l
  induction l with
  | nil => intro a _ x hx; simp at hx
  | cons b l ih =>
    intro a hchain x hx
    rw [List.chain_cons] at hchain
    rcases List.mem_cons.mp hx with hx | hx
    · exact ⟨a, by simp, hx ▸ hchain.1⟩
    · obtain ⟨u, hu, hr⟩ := ih b hchain.2 x hx
      exact ⟨u, by
        rcases List.mem_cons.mp hu with hu | hu
        · simp [hu]
        · simp [hu], hr⟩

/-- Every node of a cycle has a predecessor along the cycle. -/
theorem isCycle_pred (R : String → String → Prop) (c : List String)
    (hc : IsCycle R c) : ∀ v ∈ c, ∃ u ∈ c, R u v := by
  cases c with
  | nil => exact hc.elim
  | cons v0 tail =>
    intro v hv
    have hmem : v ∈ tail ++ [v0] := by
      rcases List.mem_cons.mp hv with hv | hv
      · simp [hv]
      · simp [hv]
    obtain ⟨u, hu, hr⟩ := chain_mem_pred R (tail ++ [v0]) v0 hc v hmem
    refine ⟨u, ?_, hr⟩
    rcases List.mem_cons.mp hu with hu | hu
    · simp [hu]
    · rcases List.mem_append.mp hu with hu | hu
      · simp [hu]
      · rw [List.mem_singleton] at hu
        simp [hu]

theorem chain_of_descent (R : String → String → Prop) (vals : Nat → String)
    (hR : ∀ n, R (vals (n + 1)) (vals n)) :
    ∀ (d i : Nat), 1 ≤ d →
      List.Chain R (vals (i + d))
        (((List.range (d - 1)).map (fun k => vals (i + d - 1 - k))) ++ [vals i]) := by
  intro d
  induction d with
  | zero => intro i h; omega
  | succ d ih =>
    intro i _
    cases Nat.eq_zero_or_pos d with
    | inl hd0 =>
      subst hd0
      have h0 : (List.range (0 + 1 - 1)).map (fun k => vals (i + (0 + 1) - 1 - k)) =
          ([] : List String) := by simp
      rw [h0, List.nil_append]
      exact List.Chain.cons (hR i) List.Chain.nil
    | inr hd1 =>
      have hrange : List.range (d + 1 - 1) = 0 :: (List.range (d - 1)).map Nat.succ := by
        have : d + 1 - 1 = (d - 1) + 1 := by omega
        rw [this, List.range_succ_eq_map]
      rw [hrange, List.map_cons, List.map_map]
      have hmap : (List.range (d - 1)).map ((fun k => vals (i + (d + 1) - 1 - k)) ∘ Nat.succ) =
          (List.range (d - 1)).map (fun k => vals (i + d - 1 - k)) := by
        refine List.map_congr_left ?_
        intro k hk
        rw [List.mem_range] at hk
        have : i + (d + 1) - 1 - (k + 1) = i + d - 1 - k := by omega
        simp only [Function.comp]
        rw [this]
      rw [hmap]
      have hhead : i + (d + 1) - 1 - 0 = i + d := by omega
      rw [hhead]
      rw [List.cons_append, List.chain_cons]
      have harg : i + (d + 1) = (i + d) + 1 := by omega
      exact ⟨harg ▸ hR (i + d), ih i hd1⟩

/-- From a nonempty node set in which every node has an in-neighbor
inside the set, a cycle can be extracted. -/
theorem cycle_of_descending (R : String → String → Prop) (S : List String)
    (hne : S ≠ []) (hstep : ∀ v ∈ S, ∃ u ∈ S, R u v) :
    ∃ c, IsCycle R c := by
  have hx : ∃ x, x ∈ S := by
    cases S with
    | nil => exact absurd rfl hne
    | cons a t => exact ⟨a, by simp⟩
  obtain ⟨v0, hv0⟩ := hx
  have hsub : ∀ (x : {v // v ∈ S}), ∃ (y : {v // v ∈ S}), R y.1 x.1 := by
    intro x
    obtain ⟨u, hu, hr⟩ := hstep x.1 x.2
    exact ⟨⟨u, hu⟩, hr⟩
  choose step hstepR using hsub
  set f : Nat → {v // v ∈ S} := fun n => step^[n] ⟨v0, hv0⟩ with hf
  have hdesc : ∀ n, R (f (n + 1)).1 (f n).1 := by
    intro n
    have : f (n + 1) = step (f n) := by
      rw [hf]
      exact Function.iterate_succ_apply' step n ⟨v0, hv0⟩
    rw [this]
    exact hstepR (f n)
  have hmaps : ∀ n ∈ Finset.range (S.length + 1), (f n).1 ∈ S.toFinset := by
    intro n _
    rw [List.mem_toFinset]
    exact (f n).2
  have hcard : S.toFinset.card < (Finset.range (S.length + 1)).card := by
    rw [Finset.card_range]
    exact Nat.lt_succ_of_le S.toFinset_card_le
  obtain ⟨i, _, j, _, hne2, heq⟩ :=
    Finset.exists_ne_map_eq_of_card_lt_of_maps_to hcard hmaps
  rcases Nat.lt_or_ge i j with hij | hij
  · refine ⟨(f j).1 :: ((List.range (j - i - 1)).map (fun k => (f (j - 1 - k)).1)), ?_⟩
    rw [IsCycle]
    have hchain := chain_of_descent R (fun n => (f n).1) hdesc (j - i) i (by omega)
    have h1 : i + (j - i) = j := by omega
    rw [h1] at hchain
    have hchain2 : List.Chain R ((f j).1)
        ((List.range (j - i - 1)).map (fun k => (f (j - 1 - k)).1) ++ [(f i).1]) :=
      hchain
    rw [heq] at hchain2
    exact hchain2
  · have hji : j < i := by omega
    refine ⟨(f i).1 :: ((List.range (i - j - 1)).map (fun k => (f (i - 1 - k)).1)), ?_⟩
    rw [IsCycle]
    have hchain := chain_of_descent R (fun n => (f n).1) hdesc (i - j) j (by omega)
    have h1 : j + (i - j) = i := by omega
    rw [h1] at hchain
    have hchain2 : List.Chain R ((f i).1)
        ((List.range (i - j - 1)).map (fun k => (f (i - 1 - k)).1) ++ [(f j).1]) :=
      hchain
    rw [← heq] at hchain2
    exact hchain2

/-- A set of nodes each of which has an in-neighbor inside the set is
never touched by the level loop. -/
theorem kahnLoop_avoid (g : Graph) (hwf : WFGraph g) (S : List String)
    (hS : ∀ v ∈ S, ∃ u ∈ S, v ∈ adjOf g u) :
    ∀ (fuel : Nat) (deg : Deg) (Q : List String) (res : List (List String)),
    KahnInv g deg Q res → (∀ v ∈ S, v ∉ res.flatten ∧ v ∉ Q) →
    ∀ v ∈ S, v ∉ (kahnLoop g fuel deg Q res).flatten := by
  intro fuel
  induction fuel with
  | zero =>
    intro deg Q res _ havoid v hv
    rw [kahnLoop]
    exact (havoid v hv).1
  | succ fuel ih =>
    intro deg Q res inv havoid v hv
    cases Q with
    | nil =>
      rw [kahnLoop]
      exact (havoid v hv).1
    | cons u q =>
      rw [kahnLoop]
      have hinv2 := kahnInv_step g hwf deg (u :: q) res inv
      refine ih (processLevel g deg (u :: q)).1 (processLevel g deg (u :: q)).2
        (res ++ [u :: q]) hinv2 ?_ v hv
      intro w hw
      constructor
      · have hflat : (res ++ [u :: q]).flatten = res.flatten ++ (u :: q) := by simp
        rw [hflat]
        intro hc
        rcases List.mem_append.mp hc with hc | hc
        · exact (havoid w hw).1 hc
        · exact (havoid w hw).2 hc
      · intro hc
        have hzero := hinv2.queue_zero w hc
        obtain ⟨p, hp, hadj⟩ := hS w hw
        have hclosed := kahnInv_zero_closed g hwf (processLevel g deg (u :: q)).1
          (processLevel g deg (u :: q)).2 (res ++ [u :: q]) hinv2 w hzero p hadj
        have hflat : (res ++ [u :: q]).flatten = res.flatten ++ (u :: q) := by simp
        rw [hflat] at hclosed
        rcases List.mem_append.mp hclosed with hcp | hcp
        · exact (havoid p hp).1 hcp
        · exact (havoid p hp).2 hcp

/-- On an acyclic graph, a final loop state with an empty queue has
placed every key. -/
theorem kahnInv_final_complete (g : Graph) (hwf : WFGraph g) (deg : Deg)
    (res : List (List String)) (inv : KahnInv g deg [] res)
    (hnc : ¬∃ c, IsCycle (GEdge g) c) :
    ∀ v ∈ graphKeys g, v ∈ res.flatten := by
  by_contra hcon
  push_neg at hcon
  obtain ⟨v0, hv0key, hv0not⟩ := hcon
  set S := (graphKeys g).filter (fun v => decide (v ∉ res.flatten)) with hSdef
  have hSmem : ∀ v, v ∈ S ↔ v ∈ graphKeys g ∧ v ∉ res.flatten := by
    intro v
    rw [hSdef, List.mem_filter]
    simp
  have hne : S ≠ [] := by
    intro hc
    have := (hSmem v0).mpr ⟨hv0key, hv0not⟩
    rw [hc] at this
    simp at this
  have hstep : ∀ v ∈ S, ∃ u ∈ S, GEdge g u v := by
    intro v hv
    obtain ⟨hvkey, hvnot⟩ := (hSmem v).mp hv
    have hdegne : deg v ≠ 0 := by
      intro hc
      exact absurd (inv.zero_mem v hvkey hc hvnot) (by simp)
    have hdegpos : 0 < deg v := by
      have := kahnInv_deg_nonneg g hwf deg [] res inv v
      omega
    have hnotclosed : ¬(∀ u, v ∈ adjOf g u → u ∈ res.flatten) := by
      intro hc
      have := edgesFrom_eq_total_of_closed res.flatten g inv.placed_nodup
        inv.placed_sub hwf.1 v hc
      have hd := inv.deg_eq v
      omega
    push_neg at hnotclosed
    obtain ⟨u, hadj, hunot⟩ := hnotclosed
    have hukey : u ∈ graphKeys g :=
      mem_keys_of_adjOf_ne_nil g u (fun hc => by rw [hc] at hadj; simp at hadj)
    exact ⟨u, (hSmem u).mpr ⟨hukey, hunot⟩, hadj⟩
  exact hnc (cycle_of_descending (GEdge g) S hne hstep)

/-- One key's adjacency count is at most the total edge count into v. -/
theorem adjOf_count_le (g : Graph) (hnd : (graphKeys g).Nodup) (u v : String)
    (hu : u ∈ graphKeys g) : (adjOf g u).count v ≤ countEdgesInto g v := by
  have h := edgesFrom_le_total [u] g (List.nodup_singleton u)
    (fun x hx => by rw [List.mem_singleton] at hx; exact hx ▸ hu) hnd v
  rw [edgesFrom_cons, edgesFrom_nil] at h
  omega

theorem topologicalSort_eq (g : Graph) :
    topologicalSort g =
      if ((kahnLoop g (g.length + 1) (computeInDeg g)
            ((graphKeys g).filter (fun n => computeInDeg g n = 0)) []).map
          List.length).sum < g.length then
        Except.error "cyclic dependency detected in resource graph"
      else
        Except.ok (kahnLoop g (g.length + 1) (computeInDeg g)
          ((graphKeys g).filter (fun n => computeInDeg g n = 0)) []) := rfl

/-- topologicalSort on a well-formed acyclic graph: success, the levels
partition the key set, and every edge crosses strictly forward in level
index. -/
theorem topologicalSort_ok_of_acyclic (g : Graph) (hwf : WFGraph g)
    (hnc : ¬∃ c, IsCycle (GEdge g) c) :
    ∃ levels, topologicalSort g = Except.ok levels ∧
      levels.flatten.Perm (graphKeys g) ∧
      (∀ u v, v ∈ adjOf g u → ∀ i j, ∀ (hi : i < levels.length)
        (hj : j < levels.length),
        u ∈ levels.get ⟨i, hi⟩ → v ∈ levels.get ⟨j, hj⟩ → i < j) := by
  obtain ⟨deg2, Q2, hinv2, hfuel⟩ := kahnLoop_spec g hwf (g.length + 1)
    (computeInDeg g) ((graphKeys g).filter (fun n => computeInDeg g n = 0)) []
    (kahnInv_init g hwf)
  have hkeyslen : (graphKeys g).length = g.length := by
    rw [graphKeys, List.length_map]
  have hQ2 : Q2 = [] := by
    refine hfuel ?_
    simp only [List.flatten_nil, List.length_nil, Nat.sub_zero]
    omega
  subst hQ2
  have hcomplete := kahnInv_final_complete g hwf deg2 _ hinv2 hnc
  have hperm : (kahnLoop g (g.length + 1) (computeInDeg g)
      ((graphKeys g).filter (fun n => computeInDeg g n = 0)) []).flatten.Perm
      (graphKeys g) := by
    refine List.perm_of_nodup_nodup_toFinset_eq hinv2.placed_nodup hwf.1 ?_
    ext x
    rw [List.mem_toFinset, List.mem_toFinset]
    exact ⟨fun hx => hinv2.placed_sub x hx, fun hx => hcomplete x hx⟩
  refine ⟨_, ?_, hperm, ?_⟩
  · rw [topologicalSort_eq, if_neg ?_]
    rw [← List.length_flatten, hperm.length_eq, hkeyslen]
    omega
  · intro u v hadj i j hi hj hu hv
    exact hinv2.ord u v hadj i j hi hj hu hv

/-- topologicalSort on a well-formed graph containing a cycle: the cycle
error is reported and no levels are returned. -/
theorem topologicalSort_err_of_cycle (g : Graph) (hwf : WFGraph g)
    (c : List String) (hc : IsCycle (GEdge g) c) :
    topologicalSort g =
      Except.error "cyclic dependency detected in resource graph" := by
  have hpred : ∀ v ∈ c, ∃ u ∈ c, v ∈ adjOf g u := isCycle_pred (GEdge g) c hc
  have hckeys : ∀ v ∈ c, v ∈ graphKeys g := by
    intro v hv
    obtain ⟨u, _, hadj⟩ := hpred v hv
    exact hwf.2 u v hadj
  have hinit := kahnInv_init g hwf
  have havoid0 : ∀ v ∈ c,
      v ∉ (([] : List (List String)).flatten) ∧
      v ∉ (graphKeys g).filter (fun n => computeInDeg g n = 0) := by
    intro v hv
    refine ⟨by simp, ?_⟩
    obtain ⟨u, hu, hadj⟩ := hpred v hv
    have hukey : u ∈ graphKeys g :=
      mem_keys_of_adjOf_ne_nil g u (fun hcn => by rw [hcn] at hadj; simp at hadj)
    have hcount : 0 < (adjOf g u).count v := List.count_pos_iff.mpr hadj
    have htot : 0 < countEdgesInto g v := by
      have := adjOf_count_le g hwf.1 u v hukey
      omega
    rw [List.mem_filter]
    intro hcon
    have hdeg := hcon.2
    rw [computeInDeg_eq] at hdeg
    simp at hdeg
    omega
  obtain ⟨deg2, Q2, hinv2, _⟩ := kahnLoop_spec g hwf (g.length + 1)
    (computeInDeg g) ((graphKeys g).filter (fun n => computeInDeg g n = 0)) []
    hinit
  have havoid := kahnLoop_avoid g hwf c hpred (g.length + 1)
    (computeInDeg g) ((graphKeys g).filter (fun n => computeInDeg g n = 0)) []
    hinit havoid0
  have hv0 : ∃ v, v ∈ c := by
    cases c with
    | nil => exact hc.elim
    | cons a t => exact ⟨a, by simp⟩
  obtain ⟨v0, hv0c⟩ := hv0
  have hmiss : v0 ∉ (kahnLoop g (g.length + 1) (computeInDeg g)
      ((graphKeys g).filter (fun n => computeInDeg g n = 0)) []).flatten :=
    havoid v0 hv0c
  have hlt : ((kahnLoop g (g.length + 1) (computeInDeg g)
      ((graphKeys g).filter (fun n => computeInDeg g n = 0)) []).flatten).length <
      (graphKeys g).length := by
    have hnodup : ((kahnLoop g (g.length + 1) (computeInDeg g)
        ((graphKeys g).filter (fun n => computeInDeg g n = 0)) []).flatten
        ++ [v0]).Nodup := by
      rw [List.nodup_append]
      refine ⟨hinv2.placed_nodup, List.nodup_singleton v0, ?_⟩
      intro a ha hcn
      rw [List.mem_singleton] at hcn
      exact hmiss (hcn ▸ ha)
    have hsub : ∀ x ∈ (kahnLoop g (g.length + 1) (computeInDeg g)
        ((graphKeys g).filter (fun n => computeInDeg g n = 0)) []).flatten
        ++ [v0], x ∈ graphKeys g := by
      intro x hx
      rcases List.mem_append.mp hx with hx | hx
      · exact hinv2.placed_sub x hx
      · rw [List.mem_singleton] at hx
        exact hx ▸ hckeys v0 hv0c
    have := nodup_subset_length_le _ _ hnodup hsub
    simp only [List.length_append, List.length_singleton] at this
    omega
  rw [topologicalSort_eq, if_pos ?_]
  rw [← List.length_flatten]
  have hkeyslen : (graphKeys g).length = g.length := by
    rw [graphKeys, List.length_map]
  omega

/-! ## Declared dependency edges and acyclicity -/

/-- A declared dependency edge: some registered resource named u lists v
among its dependencies. -/
def depEdge (rs : List Resource) (u v : String) : Prop :=
  ∃ r ∈ rs, r.name = u ∧ v ∈ r.dependencies

/-- The declared dependencies of a registry are acyclic: no cycle under
depEdge. -/
def Acyclic (rs : List Resource) : Prop := ¬∃ c, IsCycle (depEdge rs) c

theorem isCycle_imp (R R' : String → String → Prop)
    (h : ∀ a b, R a b → R' a b) (c : List String) (hc : IsCycle R c) :
    IsCycle R' c := by
  cases c with
  | nil => exact hc.elim
  | cons v tail => exact List.Chain.imp h hc

theorem chain_rank_lt (f : String → Nat) (R : String → String → Prop)
    (hR : ∀ u v, R u v → f u < f v) :
    ∀ (l : List String) (a x : String), List.Chain R a l →
      l.getLast? = some x → f a < f x := by
  intro l
  induction l with
  | nil => intro a x _ hlast; simp at hlast
  | cons b l ih =>
    intro a x hchain hlast
    rw [List.chain_cons] at hchain
    cases l with
    | nil =>
      simp at hlast
      exact hlast ▸ hR a b hchain.1
    | cons b2 l2 =>
      rw [List.getLast?_cons_cons] at hlast
      exact Nat.lt_trans (hR a b hchain.1) (ih b x hchain.2 hlast)

/-- A ranking that strictly increases along every declared dependency
certifies acyclicity. -/
theorem acyclic_of_rank (rs : List Resource) (f : String → Nat)
    (h : ∀ r ∈ rs, ∀ d ∈ r.dependencies, f r.name < f d) : Acyclic rs := by
  rintro ⟨c, hc⟩
  have hR : ∀ u v, depEdge rs u v → f u < f v := by
    rintro u v ⟨r, hr, hname, hd⟩
    exact hname ▸ h r hr v hd
  cases c with
  | nil => exact hc.elim
  | cons v0 tail =>
    have hlast : (tail ++ [v0]).getLast? = some v0 := by simp
    have := chain_rank_lt f (depEdge rs) hR (tail ++ [v0]) v0 v0 hc hlast
    omega

/-- The adjacency of the graph built in delete order realizes exactly
the declared dependency edges. -/
theorem adjOf_iff_depEdge (rs : List Resource) (g : Graph)
    (hadj : ∀ u, adjOf g u =
      (rs.filter (fun r => r.name = u)).flatMap Resource.dependencies)
    (u v : String) : v ∈ adjOf g u ↔ depEdge rs u v := by
  rw [hadj u, List.mem_flatMap, depEdge]
  constructor
  · rintro ⟨r, hr, hv⟩
    rw [List.mem_filter] at hr
    exact ⟨r, hr.1, by simpa using hr.2, hv⟩
  · rintro ⟨r, hr, hname, hv⟩
    exact ⟨r, List.mem_filter.mpr ⟨hr, by simpa using hname⟩, hv⟩

theorem resourceLookup_mem (rs : List Resource) (n : String) (r : Resource)
    (h : resourceLookup rs n = some r) : r ∈ rs ∧ r.name = n := by
  rw [resourceLookup] at h
  have hmem := List.mem_of_find?_eq_some h
  have hpred := List.find?_some h
  rw [List.mem_reverse] at hmem
  exact ⟨hmem, by simpa using hpred⟩

theorem resourceLookup_isSome (rs : List Resource) (n : String)
    (h : n ∈ rs.map Resource.name) :
    ∃ r, resourceLookup rs n = some r := by
  rw [List.mem_map] at h
  obtain ⟨r, hr, hname⟩ := h
  rw [resourceLookup]
  cases hfind : rs.reverse.find? (fun r2 => r2.name = n) with
  | some x => exact ⟨x, rfl⟩
  | none =>
    have := List.find?_eq_none.mp hfind r (List.mem_reverse.mpr hr)
    simp [hname] at this

theorem resourceLookup_self (rs : List Resource)
    (hnd : (rs.map Resource.name).Nodup) (r : Resource) (hr : r ∈ rs) :
    resourceLookup rs r.name = some r := by
  obtain ⟨r2, h2⟩ := resourceLookup_isSome rs r.name
    (List.mem_map_of_mem Resource.name hr)
  obtain ⟨hmem2, hname2⟩ := resourceLookup_mem rs r.name r2 h2
  have : r2 = r := List.inj_on_of_nodup_map hnd hmem2 hr hname2
  rw [h2, this]

/-- The main correctness package of GetResourcesForDeletion on a valid
acyclic registry: success, the levels of resources partition the
registry, and every declared dependency lands in a strictly later level
than the resource declaring it. -/
theorem getResourcesForDeletion_spec (rs : List Resource)
    (hnd : (rs.map Resource.name).Nodup)
    (hval : ∀ r ∈ rs, ∀ d ∈ r.dependencies, d ∈ rs.map Resource.name)
    (hac : Acyclic rs) :
    ∃ levels, GetResourcesForDeletion rs = Except.ok levels ∧
      levels.flatten.Perm rs ∧
      (∀ r ∈ rs, ∀ d ∈ r.dependencies,
        ∀ i j, ∀ (hi : i < levels.length) (hj : j < levels.length),
        r ∈ levels.get ⟨i, hi⟩ →
        ∀ rd, rd ∈ levels.get ⟨j, hj⟩ → rd.name = d → i < j) := by
  obtain ⟨g, hok, hkeys_iff, hkeys_nd, hadj⟩ := buildGraph_spec rs hval
  have hwf : WFGraph g := by
    refine ⟨hkeys_nd, ?_⟩
    intro u d hd
    rw [adjOf_iff_depEdge rs g hadj u d] at hd
    obtain ⟨r, hr, _, hd2⟩ := hd
    exact (hkeys_iff d).mpr (hval r hr d hd2)
  have hnc : ¬∃ c, IsCycle (GEdge g) c := by
    rintro ⟨c, hc⟩
    exact hac ⟨c, isCycle_imp (GEdge g) (depEdge rs)
      (fun a b hab => (adjOf_iff_depEdge rs g hadj a b).mp hab) c hc⟩
  obtain ⟨nameLevels, hts, hperm, hord⟩ := topologicalSort_ok_of_acyclic g hwf hnc
  have hunfold : GetResourcesForDeletion rs =
      Except.ok (nameLevels.map (fun level =>
        level.filterMap (fun n => resourceLookup rs n))) := by
    rw [GetResourcesForDeletion, getOrderedResources, hok]
    simp only [hts]
  refine ⟨_, hunfold, ?_, ?_⟩
  · have h1 : ((nameLevels.map (fun level =>
        level.filterMap (fun n => resourceLookup rs n))).flatten) =
        nameLevels.flatten.filterMap (fun n => resourceLookup rs n) :=
      (List.filterMap_flatten (fun n => resourceLookup rs n) nameLevels).symm
    rw [h1]
    have hkeysperm : (graphKeys g).Perm (rs.map Resource.name) := by
      refine List.perm_of_nodup_nodup_toFinset_eq hkeys_nd hnd ?_
      ext x
      rw [List.mem_toFinset, List.mem_toFinset]
      exact hkeys_iff x
    have hp2 : nameLevels.flatten.Perm (rs.map Resource.name) :=
      hperm.trans hkeysperm
    have hp3 := hp2.filterMap (fun n => resourceLookup rs n)
    have h4 : (rs.map Resource.name).filterMap (fun n => resourceLookup rs n) =
        rs := by
      rw [List.filterMap_map]
      have h5 : rs.filterMap ((fun n => resourceLookup rs n) ∘ Resource.name) =
          rs.filterMap some := by
        refine List.filterMap_congr ?_
        intro r hr
        exact resourceLookup_self rs hnd r hr
      rw [h5, List.filterMap_some]
    rw [h4] at hp3
    exact hp3
  · intro r hr d hd i j hi hj hru rd hrd hrdname
    have hlen : (nameLevels.map (fun level =>
        level.filterMap (fun n => resourceLookup rs n))).length =
        nameLevels.length := by
      rw [List.length_map]
    have hi2 : i < nameLevels.length := by rw [← hlen]; exact hi
    have hj2 : j < nameLevels.length := by rw [← hlen]; exact hj
    have hget : ∀ (m : Nat) (hm : m < nameLevels.length)
        (hm2 : m < (nameLevels.map (fun level =>
          level.filterMap (fun n => resourceLookup rs n))).length),
        (nameLevels.map (fun level =>
          level.filterMap (fun n => resourceLookup rs n))).get ⟨m, hm2⟩ =
        (nameLevels.get ⟨m, hm⟩).filterMap (fun n => resourceLookup rs n) := by
      intro m hm hm2
      simp
    rw [hget i hi2 hi] at hru
    rw [hget j hj2 hj] at hrd
    rw [List.mem_filterMap] at hru hrd
    obtain ⟨nu, hnu, hlu⟩ := hru
    obtain ⟨nv, hnv, hlv⟩ := hrd
    have hu2 := resourceLookup_mem rs nu r hlu
    have hv2 := resourceLookup_mem rs nv rd hlv
    have hedge : d ∈ adjOf g r.name :=
      (adjOf_iff_depEdge rs g hadj r.name d).mpr ⟨r, hr, rfl, hd⟩
    have hnu2 : nu = r.name := hu2.2.symm
    have hnv2 : nv = d := by rw [← hrdname]; exact hv2.2.symm
    exact hord r.name d hedge i j hi2 hj2 (hnu2 ▸ hnu) (hnv2 ▸ hnv)

/-- C1: for every registry of uniquely-named resource descriptors whose
declared dependencies all resolve and are acyclic,
GetResourcesForDeletion succeeds and assigns every registered resource
to exactly one level — the concatenated levels are a permutation of the
registry, so the levels are pairwise disjoint and their union is the
full resource set — and for every declared dependency edge (resource to
dependency) the level index of the dependency is at least the level
index of the resource, so the dependency is deleted no earlier. -/
theorem getResourcesForDeletion_partition_and_order (rs : List Resource)
    (hnd : (rs.map Resource.name).Nodup)
    (hval : ∀ r ∈ rs, ∀ d ∈ r.dependencies, d ∈ rs.map Resource.name)
    (hac : Acyclic rs) :
    ∃ levels, GetResourcesForDeletion rs = Except.ok levels ∧
      levels.flatten.Perm rs ∧
      levels.Pairwise List.Disjoint ∧
      (∀ r ∈ rs, ∀ d ∈ r.dependencies,
        ∀ i j, ∀ (hi : i < levels.length) (hj : j < levels.length),
        r ∈ levels.get ⟨i, hi⟩ →
        ∀ rd, rd ∈ levels.get ⟨j, hj⟩ → rd.name = d → i ≤ j) := by
  obtain ⟨levels, hok, hperm, hord⟩ := getResourcesForDeletion_spec rs hnd hval hac
  refine ⟨levels, hok, hperm, ?_, ?_⟩
  · have hndrs : rs.Nodup := List.Nodup.of_map Resource.name hnd
    have hflat : levels.flatten.Nodup := hperm.nodup_iff.mpr hndrs
    exact (List.nodup_flatten.mp hflat).2
  · intro r hr d hd i j hi hj hru rd hrd hname
    exact Nat.le_of_lt (hord r hr d hd i j hi hj hru rd hrd hname)

/-- C1 witness: a three-resource chain, leveled for deletion. -/
theorem getResourcesForDeletion_partition_and_order_witness :
    ∃ levels, GetResourcesForDeletion
        [{ name := "basic-auth", path := "basic-auths", dependencies := ["consumer"] },
         { name := "consumer", path := "consumers", dependencies := ["consumer-group"] },
         { name := "consumer-group", path := "consumer_groups", dependencies := [] }] =
        Except.ok levels ∧
      levels.flatten.Perm
        [{ name := "basic-auth", path := "basic-auths", dependencies := ["consumer"] },
         { name := "consumer", path := "consumers", dependencies := ["consumer-group"] },
         { name := "consumer-group", path := "consumer_groups", dependencies := [] }] ∧
      levels.Pairwise List.Disjoint ∧
      (∀ r ∈ ([{ name := "basic-auth", path := "basic-auths", dependencies := ["consumer"] },
         { name := "consumer", path := "consumers", dependencies := ["consumer-group"] },
         { name := "consumer-group", path := "consumer_groups", dependencies := [] }] :
          List Resource),
        ∀ d ∈ r.dependencies,
        ∀ i j, ∀ (hi : i < levels.length) (hj : j < levels.length),
        r ∈ levels.get ⟨i, hi⟩ →
        ∀ rd, rd ∈ levels.get ⟨j, hj⟩ → rd.name = d → i ≤ j) :=
  getResourcesForDeletion_partition_and_order
    [{ name := "basic-auth", path := "basic-auths", dependencies := ["consumer"] },
     { name := "consumer", path := "consumers", dependencies := ["consumer-group"] },
     { name := "consumer-group", path := "consumer_groups", dependencies := [] }]
    (by decide) (by decide)
    (acyclic_of_rank _
      (fun n => if n = "basic-auth" then 0 else if n = "consumer" then 1 else 2)
      (by decide))

/-- C10: under the same conditions the ordering is strict — the level
index of every declared dependency is strictly greater than the level
index of the resource declaring it, and in particular a resource never
shares a level with one of its declared dependencies. -/
theorem getResourcesForDeletion_strict_order (rs : List Resource)
    (hnd : (rs.map Resource.name).Nodup)
    (hval : ∀ r ∈ rs, ∀ d ∈ r.dependencies, d ∈ rs.map Resource.name)
    (hac : Acyclic rs) :
    ∃ levels, GetResourcesForDeletion rs = Except.ok levels ∧
      (∀ r ∈ rs, ∀ d ∈ r.dependencies,
        ∀ i j, ∀ (hi : i < levels.length) (hj : j < levels.length),
        r ∈ levels.get ⟨i, hi⟩ →
        ∀ rd, rd ∈ levels.get ⟨j, hj⟩ → rd.name = d → i < j) ∧
      (∀ r ∈ rs, ∀ d ∈ r.dependencies,
        ∀ i, ∀ (hi : i < levels.length),
        r ∈ levels.get ⟨i, hi⟩ →
        ∀ rd, rd ∈ levels.get ⟨i, hi⟩ → rd.name ≠ d) := by
  obtain ⟨levels, hok, _, hord⟩ := getResourcesForDeletion_spec rs hnd hval hac
  refine ⟨levels, hok, hord, ?_⟩
  intro r hr d hd i hi hru rd hrd hname
  exact absurd (hord r hr d hd i i hi hi hru rd hrd hname) (by omega)

/-- C10 witness: a two-resource registry for which the dependency lands
strictly later and never in the same level. -/
theorem getResourcesForDeletion_strict_order_witness :
    ∃ levels, GetResourcesForDeletion
        [{ name := "mtls-auth", path := "mtls-auths", dependencies := ["ca-certificate"] },
         { name := "ca-certificate", path := "ca_certificates", dependencies := [] }] =
        Except.ok levels ∧
      (∀ r ∈ ([{ name := "mtls-auth", path := "mtls-auths", dependencies := ["ca-certificate"] },
         { name := "ca-certificate", path := "ca_certificates", dependencies := [] }] :
          List Resource),
        ∀ d ∈ r.dependencies,
        ∀ i j, ∀ (hi : i < levels.length) (hj : j < levels.length),
        r ∈ levels.get ⟨i, hi⟩ →
        ∀ rd, rd ∈ levels.get ⟨j, hj⟩ → rd.name = d → i < j) ∧
      (∀ r ∈ ([{ name := "mtls-auth", path := "mtls-auths", dependencies := ["ca-certificate"] },
         { name := "ca-certificate", path := "ca_certificates", dependencies := [] }] :
          List Resource),
        ∀ d ∈ r.dependencies,
        ∀ i, ∀ (hi : i < levels.length),
        r ∈ levels.get ⟨i, hi⟩ →
        ∀ rd, rd ∈ levels.get ⟨i, hi⟩ → rd.name ≠ d) :=
  getResourcesForDeletion_strict_order
    [{ name := "mtls-auth", path := "mtls-auths", dependencies := ["ca-certificate"] },
     { name := "ca-certificate", path := "ca_certificates", dependencies := [] }]
    (by decide) (by decide)
    (acyclic_of_rank _ (fun n => if n = "mtls-auth" then 0 else 1) (by decide))

/-- C3: for every registry whose declared dependencies all resolve and
contain a cycle, GetResourcesForDeletion reports the cycle error of
topologicalSort (wrapped by getOrderedResources) and returns no levels
(the error is the entire result). -/
theorem getResourcesForDeletion_cycle_error (rs : List Resource)
    (hval : ∀ r ∈ rs, ∀ d ∈ r.dependencies, d ∈ rs.map Resource.name)
    (c : List String) (hc : IsCycle (depEdge rs) c) :
    GetResourcesForDeletion rs = Except.error
      ("failed to topologically sort resources: "
        ++ "cyclic dependency detected in resource graph") := by
  obtain ⟨g, hok, hkeys_iff, hkeys_nd, hadj⟩ := buildGraph_spec rs hval
  have hwf : WFGraph g := by
    refine ⟨hkeys_nd, ?_⟩
    intro u d hd
    rw [adjOf_iff_depEdge rs g hadj u d] at hd
    obtain ⟨r, hr, _, hd2⟩ := hd
    exact (hkeys_iff d).mpr (hval r hr d hd2)
  have hc2 : IsCycle (GEdge g) c := isCycle_imp (depEdge rs) (GEdge g)
    (fun a b hab => (adjOf_iff_depEdge rs g hadj a b).mpr hab) c hc
  have hts := topologicalSort_err_of_cycle g hwf c hc2
  rw [GetResourcesForDeletion, getOrderedResources, hok]
  simp only [hts]

/-- C3 witness: two resources depending on each other. -/
theorem getResourcesForDeletion_cycle_error_witness :
    GetResourcesForDeletion
        [{ name := "service", path := "services", dependencies := ["route"] },
         { name := "route", path := "routes", dependencies := ["service"] }] =
      Except.error
        ("failed to topologically sort resources: "
          ++ "cyclic dependency detected in resource graph") :=
  getResourcesForDeletion_cycle_error
    [{ name := "service", path := "services", dependencies := ["route"] },
     { name := "route", path := "routes", dependencies := ["service"] }]
    (by decide) ["service", "route"]
    (List.Chain.cons
      ⟨{ name := "service", path := "services", dependencies := ["route"] },
        by simp, rfl, by simp⟩
      (List.Chain.cons
        ⟨{ name := "route", path := "routes", dependencies := ["service"] },
          by simp, rfl, by simp⟩
        List.Chain.nil))
